import Mathlib

/-!
Verification of the sliding-puzzle core (state model and A* solver) of the
SlidePuzzle repository, file src/slide_puzzle/puzzle.py.

The embedding mirrors the Python source:
* class SlidePuzzleState becomes the structure SlidePuzzleState with a
  natural-number grid dimension and a list of natural-number tile values
  (all tile values arising in valid states are the naturals 0 .. size*size-1);
* the constructor validation of SlidePuzzleState.__post_init__, which receives
  arbitrary Python integers, is modelled separately over Int
  (post_init_ok, from_sequence, solvedZ), so that claims about construction
  with out-of-range inputs keep their full generality;
* Python dicts are modelled by functions into Option, Python heapq by a
  multiset of entries from which heappop extracts the lexicographically least
  (priority, counter) entry -- the documented heapq contract; counters of live
  entries are pairwise distinct during a run, so this determines heapq
  behaviour extensionally;
* the two while loops (solve_puzzle and reconstruct_path) take an explicit
  fuel argument; theorems produce a sufficient fuel existentially, which is
  the termination statement for the unfuelled Python loop.
-/

/-- SlidePuzzleState: immutable n x n sliding puzzle state, from puzzle.py.
The field tiles is the row-major tile sequence, value 0 is the blank. -/
structure SlidePuzzleState where
  size : ℕ
  tiles : List ℕ
deriving DecidableEq, Repr

namespace SlidePuzzleState

/-- Canonical solved tile sequence tuple(range(1, size*size)) + (0,) from
SlidePuzzleState.solved and is_solved: the values 1, ..., size*size-1, 0. -/
def solved_tiles (n : ℕ) : List ℕ :=
  (List.range (n * n)).drop 1 ++ [0]

/-- Constructor validation of SlidePuzzleState.__post_init__ over Python
integers: the length check followed by the missing-tiles check
(expected = set(range(size*size)); missing = expected.difference(tiles)).
Returns true when construction succeeds, false when ValueError is raised. -/
def post_init_ok (size : ℤ) (tiles : List ℤ) : Bool :=
  ((tiles.length : ℤ) == size * size) &&
    (List.range (size * size).toNat).all (fun v => tiles.contains (v : ℤ))

/-- Result of SlidePuzzleState construction over Python integers: a size and
the stored tile tuple. -/
structure ZState where
  size : ℤ
  tiles : List ℤ
deriving DecidableEq, Repr

/-- SlidePuzzleState.from_sequence over Python integers: builds the state from
an explicit sequence; none models the ValueError of __post_init__. -/
def from_sequence (size : ℤ) (seq : List ℤ) : Option ZState :=
  if post_init_ok size seq then some ⟨size, seq⟩ else none

/-- Tile sequence built by SlidePuzzleState.solved over Python integers:
tuple(range(1, size*size)) + (0,). For size*size ≤ 1 this is just (0,). -/
def solvedZ_tiles (size : ℤ) : List ℤ :=
  ((List.range (size * size).toNat).drop 1).map (fun v : ℕ => (v : ℤ)) ++ [0]

/-- SlidePuzzleState.solved over Python integers, including the constructor
validation; none models the ValueError of __post_init__. -/
def solvedZ (size : ℤ) : Option ZState :=
  if post_init_ok size (solvedZ_tiles size) then
    some ⟨size, solvedZ_tiles size⟩ else none

/-- Validity of a state of the natural-number model: exactly the
__post_init__ checks (length matches size*size, and no value of
range(size*size) is missing from tiles). -/
def valid (s : SlidePuzzleState) : Bool :=
  (s.tiles.length == s.size * s.size) &&
    (List.range (s.size * s.size)).all (fun v => s.tiles.contains v)

/-- SlidePuzzleState.blank_index: self.tiles.index(0), the first index holding
the blank. On a valid state the blank exists and the index is unique. -/
def blank_index (s : SlidePuzzleState) : ℕ :=
  List.indexOf 0 s.tiles

/-- SlidePuzzleState.index_of: self.tiles.index(tile); none models the
ValueError raised by tuple.index when the value is absent. -/
def index_of (s : SlidePuzzleState) (tile : ℕ) : Option ℕ :=
  List.indexOf? tile s.tiles

/-- SlidePuzzleState.coordinates: divmod(index, self.size), as (row, col). -/
def coordinates (s : SlidePuzzleState) (index : ℕ) : ℕ × ℕ :=
  (index / s.size, index % s.size)

/-- SlidePuzzleState.manhattan_distance. The Python dict goal_positions maps
each value v of range(1, size*size) to its enumeration index v - 1, so
goal_idx = value - 1; the loop enumerates tiles and sums
abs(gx - cx) + abs(gy - cy) over non-blank values, with
(gx, gy) = divmod(goal_idx, size) and (cx, cy) = divmod(idx, size). -/
def manhattan_distance (s : SlidePuzzleState) : ℕ :=
  ((List.range s.tiles.length).map (fun idx =>
    let value := s.tiles.getD idx 0
    if value = 0 then 0
    else Nat.dist ((value - 1) / s.size) (idx / s.size) +
         Nat.dist ((value - 1) % s.size) (idx % s.size))).sum

/-- SlidePuzzleState.is_solved: tiles equals the canonical solved sequence. -/
def is_solved (s : SlidePuzzleState) : Bool :=
  s.tiles == solved_tiles s.size

/-- SlidePuzzleState.swap: returns the state with the values at the two given
row-major indices exchanged (the Python tuple unpacking reads both old values
before writing). Claims use it with in-range indices, matching the Python
list-index domain on which no exception occurs. -/
def swap (s : SlidePuzzleState) (idx_a idx_b : ℕ) : SlidePuzzleState :=
  ⟨s.size, (s.tiles.set idx_a (s.tiles.getD idx_b 0)).set idx_b
    (s.tiles.getD idx_a 0)⟩

/-- SlidePuzzleState.move_tile. The outer Option models the ValueError of
index_of when the tile is absent; the inner Option is the explicit Python
return value (None = no move, the state = the applied swap). -/
def move_tile (s : SlidePuzzleState) (tile : ℕ) :
    Option (Option SlidePuzzleState) :=
  match s.index_of tile with
  | none => none
  | some tile_index =>
    let bi := s.blank_index
    let br := bi / s.size
    let bc := bi % s.size
    let tr := tile_index / s.size
    let tc := tile_index % s.size
    if Nat.dist br tr + Nat.dist bc tc ≠ 1 then some none
    else some (some (s.swap bi tile_index))

/-- SlidePuzzleState.legal_moves: for each offset (dx, dy) in
[(-1,0), (1,0), (0,-1), (0,1)] whose target cell lies on the grid, yields the
tile at that cell paired with the state after swapping it with the blank. -/
def legal_moves (s : SlidePuzzleState) : List (ℕ × SlidePuzzleState) :=
  let bi := s.blank_index
  let row : ℤ := (bi / s.size : ℕ)
  let col : ℤ := (bi % s.size : ℕ)
  ([(-1, 0), (1, 0), (0, -1), (0, 1)] : List (ℤ × ℤ)).filterMap (fun d =>
    let nr := row + d.1
    let nc := col + d.2
    if 0 ≤ nr ∧ nr < (s.size : ℤ) ∧ 0 ≤ nc ∧ nc < (s.size : ℤ) then
      let idx := (nr * s.size + nc).toNat
      some (s.tiles.getD idx 0, s.swap bi idx)
    else none)

/-- SlidePuzzleState.solved in the natural-number model (the size ≥ 1 cases,
where the constructor validation passes; solvedZ covers the general case). -/
def solved (n : ℕ) : SlidePuzzleState :=
  ⟨n, solved_tiles n⟩

/-- Single step of SlidePuzzleState.shuffle: the candidate list after the
last-tile filter (with the refill when the filter empties it), and the choice
rng.choice(options) modelled as selection at an arbitrary index determined by
the random source; none models the IndexError of choice on an empty list. -/
def shuffle_step (state : SlidePuzzleState) (last_tile : Option ℕ) (r : ℕ) :
    Option (ℕ × SlidePuzzleState) :=
  let options := state.legal_moves
  let options2 :=
    match last_tile with
    | none => options
    | some lt =>
      let fl := options.filter
        (fun (item : ℕ × SlidePuzzleState) => item.1 ≠ lt)
      if fl.isEmpty then options else fl
  options2[(r % options2.length)]?

/-- Loop of SlidePuzzleState.shuffle: moves iterations, threading the state
and the last moved tile; the random source is a stream of draws indexed by
the step number t. -/
def shuffle_go (rng : ℕ → ℕ) :
    SlidePuzzleState → Option ℕ → ℕ → ℕ → Option SlidePuzzleState
  | state, _, 0, _ => some state
  | state, last_tile, k + 1, t =>
    match shuffle_step state last_tile (rng t) with
    | none => none
    | some (tile, next) => shuffle_go rng next (some tile) k (t + 1)

/-- SlidePuzzleState.shuffle: a random walk of the given number of legal
moves, never immediately re-moving the previously moved tile unless that
filter would leave no candidate. -/
def shuffle (s : SlidePuzzleState) (moves : ℕ) (rng : ℕ → ℕ) :
    Option SlidePuzzleState :=
  shuffle_go rng s none moves 0

end SlidePuzzleState

open SlidePuzzleState

/-- Entry of the solve_puzzle frontier heap: (priority, counter, state), as
pushed by heappush in solve_puzzle. -/
abbrev HeapEntry := ℕ × ℕ × SlidePuzzleState

/-- Strict lexicographic comparison on (priority, counter) used by heapq to
order entries. Counters of live entries are pairwise distinct during a run,
so the comparison never reaches the state component (on which Python would
raise TypeError). -/
def entryLt (a b : HeapEntry) : Bool :=
  a.1 < b.1 || (a.1 == b.1 && a.2.1 < b.2.1)

/-- Minimum entry of a nonempty frontier: the element heappop returns. -/
def heapMin (x : HeapEntry) (l : List HeapEntry) : HeapEntry :=
  l.foldl (fun best e => if entryLt e best then e else best) x

/-- heappop on the frontier modelled as a multiset: extracts the minimum
entry and the remaining entries, or none for an empty frontier. -/
def heapPop (l : List HeapEntry) : Option (HeapEntry × List HeapEntry) :=
  match l with
  | [] => none
  | x :: xs =>
    let m := heapMin x xs
    some (m, (x :: xs).erase m)

/-- Mutable data of the solve_puzzle loop: the frontier heap, the push
counter, and the came_from and g_score dicts (modelled as functions into
Option, the documented dict contract). -/
structure AStarState where
  frontier : List HeapEntry
  counter : ℕ
  came_from : SlidePuzzleState → Option (SlidePuzzleState × ℕ)
  g_score : SlidePuzzleState → Option ℕ

/-- The relaxation guard tentative < g_score.get(neighbor, float("inf")) of
solve_puzzle: true when the neighbor is undiscovered or the new cost is
strictly smaller. -/
def improves (g : SlidePuzzleState → Option ℕ) (nb : SlidePuzzleState)
    (tentative : ℕ) : Bool :=
  match g nb with
  | none => true
  | some old => tentative < old

/-- Body of the for-loop over current.legal_moves() in solve_puzzle: relax a
single (tile, neighbor) pair against the g_score map, recording the
predecessor link and pushing the neighbor with priority
tentative + neighbor.manhattan_distance(). -/
def relaxOne (current : SlidePuzzleState) (current_cost : ℕ)
    (A : AStarState) (e : ℕ × SlidePuzzleState) : AStarState :=
  let tentative := current_cost + 1
  if improves A.g_score e.2 tentative then
    { frontier :=
        A.frontier ++ [(tentative + e.2.manhattan_distance, A.counter + 1, e.2)]
      counter := A.counter + 1
      came_from := fun s => if s = e.2 then some (current, e.1) else A.came_from s
      g_score := fun s => if s = e.2 then some tentative else A.g_score s }
  else A

/-- The whole for-loop over current.legal_moves() in solve_puzzle. -/
def expandAll (current : SlidePuzzleState) (current_cost : ℕ)
    (A : AStarState) : AStarState :=
  current.legal_moves.foldl (relaxOne current current_cost) A

/-- reconstruct_path of puzzle.py with explicit fuel for its while loop:
walks came_from links from the goal back to the start, returning the moved
tiles in start-to-goal order; none models fuel exhaustion (the Python loop
has no bound, and termination is part of what is proved). -/
def reconstruct_path :
    ℕ → (SlidePuzzleState → Option (SlidePuzzleState × ℕ)) →
    SlidePuzzleState → Option (List ℕ)
  | 0, _, _ => none
  | fuel + 1, came_from, current =>
    match came_from current with
    | none => some []
    | some (prev_state, tile) =>
      (reconstruct_path fuel came_from prev_state).map (fun ms => ms ++ [tile])

/-- Outcome of solve_puzzle: a returned move list, the ValueError for an
unsolvable puzzle, fuel exhaustion of the embedding, or a Python runtime
error (KeyError on g_score, or reconstruct_path diverging) that the
invariants prove unreachable. -/
inductive SolveResult where
  | ok (moves : List ℕ)
  | unsolvable
  | outOfFuel
  | internalError
deriving DecidableEq, Repr

/-- One iteration of the while-frontier loop of solve_puzzle: pop the minimum
entry; if it is the goal, reconstruct and return; otherwise look up the
current cost and relax all legal moves. The fuel passed to reconstruct_path
is counter + 1, which the invariants prove sufficient (the came_from chain
strictly decreases g_score, which is at most counter). -/
inductive StepResult where
  | ret (r : SolveResult)
  | next (A : AStarState)

/-- Single iteration of the solve_puzzle search loop. -/
def solveStep (goal : SlidePuzzleState) (A : AStarState) : StepResult :=
  match heapPop A.frontier with
  | none => .ret .unsolvable
  | some (e, rest) =>
    let current := e.2.2
    if current = goal then
      match reconstruct_path (A.counter + 1) A.came_from current with
      | some moves => .ret (.ok moves)
      | none => .ret .internalError
    else
      match A.g_score current with
      | none => .ret .internalError
      | some current_cost =>
        .next (expandAll current current_cost { A with frontier := rest })

/-- The while-frontier loop of solve_puzzle, with fuel. -/
def solveLoop (goal : SlidePuzzleState) : ℕ → AStarState → SolveResult
  | 0, _ => .outOfFuel
  | fuel + 1, A =>
    match solveStep goal A with
    | .ret r => r
    | .next A2 => solveLoop goal fuel A2

/-- Initial loop data of solve_puzzle: frontier holding
(start.manhattan_distance(), 0, start), counter 0, empty came_from, and
g_score = {start: 0}. -/
def initAStar (start : SlidePuzzleState) : AStarState :=
  { frontier := [(start.manhattan_distance, 0, start)]
    counter := 0
    came_from := fun _ => none
    g_score := fun s => if s = start then some 0 else none }

/-- solve_puzzle of puzzle.py: the is_solved short-circuit followed by the A*
search towards SlidePuzzleState.solved(start.size), with fuel for the loop. -/
def solve_puzzle (start : SlidePuzzleState) (fuel : ℕ) : SolveResult :=
  if start.is_solved then .ok []
  else solveLoop (solved start.size) fuel (initAStar start)

/-- Expected tile multiset of the constructor validation, as a list: the
values 0, 1, ..., size*size-1 over Python integers. -/
def expected_tiles (size : ℤ) : List ℤ :=
  (List.range (size * size).toNat).map (fun v : ℕ => (v : ℤ))

lemma expected_tiles_nodup (size : ℤ) : (expected_tiles size).Nodup :=
  (List.nodup_range _).map (fun a b h => by exact_mod_cast h)

lemma expected_tiles_length (size : ℤ) :
    (expected_tiles size).length = (size * size).toNat := by
  simp [expected_tiles]

/-- The __post_init__ validation passes exactly when the sequence is a
permutation of 0 .. size*size-1: the length check plus the missing-value
check imply, by counting, that no duplicate or out-of-range value fits. -/
lemma post_init_ok_iff_perm (size : ℤ) (seq : List ℤ) :
    post_init_ok size seq = true ↔ seq.Perm (expected_tiles size) := by
  have hnn : (0 : ℤ) ≤ size * size := mul_self_nonneg size
  constructor
  · intro h
    simp only [post_init_ok, Bool.and_eq_true, beq_iff_eq, List.all_eq_true] at h
    obtain ⟨hlen, hmem⟩ := h
    have hsub : expected_tiles size ⊆ seq := by
      intro x hx
      simp only [expected_tiles, List.mem_map, List.mem_range] at hx
      obtain ⟨v, hv, rfl⟩ := hx
      have := hmem v (List.mem_range.mpr hv)
      simpa [List.contains] using this
    have hsp := (expected_tiles_nodup size).subperm hsub
    have hlen2 : seq.length ≤ (expected_tiles size).length := by
      rw [expected_tiles_length]
      omega
    exact (hsp.perm_of_length_le hlen2).symm
  · intro h
    have hlen : seq.length = (size * size).toNat := by
      rw [h.length_eq, expected_tiles_length]
    simp only [post_init_ok, Bool.and_eq_true, beq_iff_eq, List.all_eq_true]
    refine ⟨by rw [hlen]; omega, fun v hv => ?_⟩
    have : (v : ℤ) ∈ expected_tiles size := by
      simp only [expected_tiles, List.mem_map, List.mem_range]
      exact ⟨v, List.mem_range.mp hv, rfl⟩
    have : (v : ℤ) ∈ seq := h.symm.subset this
    simpa [List.contains] using this

/-- C3: construction via from_sequence fails with the InvalidState error
exactly when the sequence is not a permutation of the values
0 .. size*size-1 (equivalently, its length is wrong or a value is
duplicated, out of range, or missing), and on success the stored state keeps
the given size and tile sequence unchanged. -/
theorem claim_C3 (size : ℤ) (seq : List ℤ) :
    (from_sequence size seq = none ↔ ¬ seq.Perm (expected_tiles size)) ∧
    ∀ st, from_sequence size seq = some st → st.size = size ∧ st.tiles = seq := by
  constructor
  · rw [← post_init_ok_iff_perm]
    unfold from_sequence
    rcases h : post_init_ok size seq with _ | _ <;> simp [h]
  · intro st hst
    unfold from_sequence at hst
    rcases h : post_init_ok size seq with _ | _ <;> simp [h] at hst
    exact ⟨hst.symm ▸ rfl, hst.symm ▸ rfl⟩

theorem claim_C3_witness :
    from_sequence 3 [1, 2, 3, 4, 5, 6, 7, 8, 8] = none ∧
    from_sequence 3 [1, 2, 3, 4, 0, 6, 7, 5, 8] =
      some ⟨3, [1, 2, 3, 4, 0, 6, 7, 5, 8]⟩ := by
  refine ⟨(claim_C3 3 [1, 2, 3, 4, 5, 6, 7, 8, 8]).1.mpr (by decide), by decide⟩

lemma solved_tiles_length {n : ℕ} (h : 1 ≤ n * n) :
    (solved_tiles n).length = n * n := by
  simp [solved_tiles]
  omega

lemma solved_tiles_getElem? {n idx : ℕ} (h : idx < n * n) :
    (solved_tiles n)[idx]? = some (if idx = n * n - 1 then 0 else idx + 1) := by
  unfold solved_tiles
  rw [List.getElem?_append]
  rcases Nat.lt_or_ge idx (n * n - 1) with hlt | hge
  · rw [if_pos (by simp; omega)]
    rw [List.getElem?_drop, List.getElem?_range (by omega)]
    rw [if_neg (by omega), Nat.add_comm]
  · have hidx : idx = n * n - 1 := by omega
    rw [if_neg (by simp; omega)]
    subst hidx
    simp

lemma is_solved_solved (n : ℕ) : (solved n).is_solved = true := by
  simp [is_solved, solved]

lemma manhattan_solved (n : ℕ) : (solved n).manhattan_distance = 0 := by
  rcases Nat.eq_zero_or_pos n with h0 | hpos
  · subst h0; decide
  · have hnn : 1 ≤ n * n := Nat.one_le_iff_ne_zero.mpr (by positivity)
    apply List.sum_eq_zero
    intro x hx
    simp only [List.mem_map, List.mem_range] at hx
    obtain ⟨idx, hidx, rfl⟩ := hx
    rw [show (solved n).tiles = solved_tiles n from rfl,
        solved_tiles_length hnn] at hidx
    simp only [show (solved n).tiles = solved_tiles n from rfl,
      List.getD_eq_getElem?_getD, solved_tiles_getElem? hidx]
    rcases Nat.decEq idx (n * n - 1) with hne | heq
    · rw [if_neg hne]
      simp only [Option.getD_some, if_neg (Nat.succ_ne_zero idx)]
      simp [Nat.dist_self]
    · rw [if_pos heq]
      simp

lemma solvedZ_eq_none_iff (size : ℤ) : solvedZ size = none ↔ size = 0 := by
  constructor
  · intro h
    by_contra hne
    have hk : 1 ≤ (size * size).toNat := by
      have : 1 ≤ size * size := by
        rcases lt_or_gt_of_ne hne with hlt | hgt
        · nlinarith
        · nlinarith
      omega
    obtain ⟨m, hm⟩ : ∃ m, (size * size).toNat = m + 1 := ⟨_, (Nat.succ_pred_eq_of_pos hk).symm⟩
    have hperm : (solvedZ_tiles size).Perm (expected_tiles size) := by
      unfold solvedZ_tiles expected_tiles
      rw [hm, List.range_succ_eq_map]
      simp
    have hok := (post_init_ok_iff_perm size (solvedZ_tiles size)).mpr hperm
    unfold solvedZ at h
    rw [hok] at h
    simp at h
  · intro h
    subst h
    decide

/-- C7 (amended): solved(size) fails exactly when size = 0 — for a negative
size the constructor checks pass, since size*size equals the square of the
absolute value, so the original claim that it fails for every size < 1 is
wrong — and for every size ≥ 2 the canonical state solved(size) satisfies
isSolved() and has manhattanDistance() zero. -/
theorem claim_C7 :
    (∀ size : ℤ, solvedZ size = none ↔ size = 0) ∧
    (∀ n : ℕ, 2 ≤ n →
      (solved n).is_solved = true ∧ (solved n).manhattan_distance = 0) :=
  ⟨solvedZ_eq_none_iff,
   fun n _ => ⟨is_solved_solved n, manhattan_solved n⟩⟩

/-- C7 counterexample: the claim says solved(size) fails for every size < 1,
but at size = -1 the construction succeeds and returns the 1-cell state. -/
theorem claim_C7_counterexample :
    (-1 : ℤ) < 1 ∧ solvedZ (-1) = some ⟨-1, [0]⟩ := by
  exact ⟨by decide, by decide⟩

theorem claim_C7_witness :
    (solvedZ 0 = none ↔ (0 : ℤ) = 0) ∧
    ((solved 3).is_solved = true ∧ (solved 3).manhattan_distance = 0) :=
  ⟨claim_C7.1 0, claim_C7.2 3 (by decide)⟩

lemma contains_iff_mem {l : List ℕ} {a : ℕ} : l.contains a = true ↔ a ∈ l := by
  simp [List.contains]

lemma valid_iff (s : SlidePuzzleState) :
    s.valid = true ↔
      s.tiles.length = s.size * s.size ∧
      ∀ v < s.size * s.size, v ∈ s.tiles := by
  simp only [valid, Bool.and_eq_true, beq_iff_eq, List.all_eq_true,
    List.mem_range]
  constructor
  · rintro ⟨h1, h2⟩
    exact ⟨h1, fun v hv => contains_iff_mem.mp (h2 v hv)⟩
  · rintro ⟨h1, h2⟩
    exact ⟨h1, fun v hv => contains_iff_mem.mpr (h2 v hv)⟩

/-- The __post_init__ checks pin the tile list down to a permutation of
0 .. size*size-1, by the counting argument: the expected values all occur in
a list of exactly their number. -/
lemma valid_perm {s : SlidePuzzleState} (h : s.valid = true) :
    s.tiles.Perm (List.range (s.size * s.size)) := by
  rw [valid_iff] at h
  obtain ⟨hlen, hmem⟩ := h
  have hsub : List.range (s.size * s.size) ⊆ s.tiles := by
    intro v hv
    exact hmem v (List.mem_range.mp hv)
  have hsp := (List.nodup_range _).subperm hsub
  have hlen2 : s.tiles.length ≤ (List.range (s.size * s.size)).length := by
    simp [hlen]
  exact (hsp.perm_of_length_le hlen2).symm

lemma valid_length {s : SlidePuzzleState} (h : s.valid = true) :
    s.tiles.length = s.size * s.size :=
  ((valid_iff s).mp h).1

lemma valid_nodup {s : SlidePuzzleState} (h : s.valid = true) :
    s.tiles.Nodup :=
  (valid_perm h).nodup_iff.mpr (List.nodup_range _)

lemma valid_mem_iff {s : SlidePuzzleState} (h : s.valid = true) {v : ℕ} :
    v ∈ s.tiles ↔ v < s.size * s.size := by
  rw [(valid_perm h).mem_iff, List.mem_range]

lemma indexOf?_eq_some_of_mem {l : List ℕ} {a : ℕ} (h : a ∈ l) :
    List.indexOf? a l = some (List.indexOf a l) := by
  rcases heq : List.indexOf? a l with _ | i
  · exfalso
    rw [List.indexOf?_eq_none_iff] at heq
    have h2 := heq a h
    simp at h2
  · have := List.indexOf_eq_indexOf? a l
    rw [heq] at this
    rw [this]

lemma index_of_mem {s : SlidePuzzleState} {t : ℕ} (h : t ∈ s.tiles) :
    s.index_of t = some (List.indexOf t s.tiles) :=
  indexOf?_eq_some_of_mem h

lemma index_of_not_mem {s : SlidePuzzleState} {t : ℕ} (h : t ∉ s.tiles) :
    s.index_of t = none := by
  rw [index_of, List.indexOf?_eq_none_iff]
  intro x hx
  simp only [beq_iff_eq]
  rintro rfl
  exact h hx

lemma blank_index_lt {s : SlidePuzzleState} (h : s.valid = true)
    (hn : 1 ≤ s.size) : s.blank_index < s.tiles.length :=
  List.indexOf_lt_length.mpr
    ((valid_mem_iff h).mpr (by nlinarith))

lemma getD_indexOf {l : List ℕ} {a : ℕ} (h : a ∈ l) :
    l.getD (List.indexOf a l) 0 = a := by
  have hlt := List.indexOf_lt_length.mpr h
  rw [List.getD_eq_getElem?_getD, List.getElem?_eq_getElem hlt]
  exact List.getElem_indexOf hlt

lemma tiles_blank_index {s : SlidePuzzleState} (h : s.valid = true)
    (hn : 1 ≤ s.size) : s.tiles.getD s.blank_index 0 = 0 :=
  getD_indexOf ((valid_mem_iff h).mpr (by nlinarith))

/-- The doubled set of SlidePuzzleState.swap leaves the tile multiset
unchanged when both indices are in range. -/
lemma swap_tiles_perm (l : List ℕ) (a b : ℕ) (ha : a < l.length)
    (hb : b < l.length) :
    ((l.set a (l.getD b 0)).set b (l.getD a 0)).Perm l := by
  have hga : l.getD a 0 = l[a] := by
    rw [List.getD_eq_getElem?_getD, List.getElem?_eq_getElem ha]; rfl
  have hgb : l.getD b 0 = l[b] := by
    rw [List.getD_eq_getElem?_getD, List.getElem?_eq_getElem hb]; rfl
  rw [hga, hgb, List.perm_iff_count]
  intro c
  have hb2 : b < (l.set a l[b]).length := by simpa using hb
  rw [List.count_set l[a] c (l.set a l[b]) b hb2,
      List.count_set l[b] c l a ha]
  have hsb : (l.set a l[b])[b] = l[b] := by
    rw [List.getElem_set]
    split <;> rfl
  rw [hsb]
  have hca : l[a] = c → 1 ≤ List.count c l := by
    intro hc
    exact List.count_pos_iff.mpr (hc ▸ List.getElem_mem ha)
  have hcb : l[b] = c → 1 ≤ List.count c l := by
    intro hc
    exact List.count_pos_iff.mpr (hc ▸ List.getElem_mem hb)
  by_cases h1 : l[a] = c <;> by_cases h2 : l[b] = c
  · have k1 := hca h1
    simp [h1, h2]
    omega
  · have k1 := hca h1
    simp [h1, h2]
    omega
  · have k2 := hcb h2
    simp [h1, h2]
  · simp [h1, h2]

lemma swap_size (s : SlidePuzzleState) (a b : ℕ) :
    (s.swap a b).size = s.size := rfl

lemma swap_valid {s : SlidePuzzleState} (h : s.valid = true) {a b : ℕ}
    (ha : a < s.size * s.size) (hb : b < s.size * s.size) :
    (s.swap a b).valid = true := by
  have hl := valid_length h
  have hperm := swap_tiles_perm s.tiles a b (by omega) (by omega)
  rw [valid_iff]
  refine ⟨by simpa [swap] using hl, fun v hv => ?_⟩
  have : v ∈ s.tiles := (valid_mem_iff h).mpr hv
  exact hperm.symm.subset this

/-- C5: on a valid state, moving a tile that is present succeeds exactly when
the Manhattan distance between the positions of the tile and of the blank is
one, in which case the result is the state with the two swapped; otherwise
the distinguishable no-move value (the inner None) is returned, never an
error. -/
theorem claim_C5 (s : SlidePuzzleState) (t : ℕ) (hv : s.valid = true)
    (ht : t ∈ s.tiles) :
    ∃ ti, s.index_of t = some ti ∧
      (s.move_tile t = some (some (s.swap s.blank_index ti)) ↔
        Nat.dist (s.coordinates s.blank_index).1 (s.coordinates ti).1 +
        Nat.dist (s.coordinates s.blank_index).2 (s.coordinates ti).2 = 1) ∧
      (s.move_tile t = some none ↔
        ¬ (Nat.dist (s.coordinates s.blank_index).1 (s.coordinates ti).1 +
           Nat.dist (s.coordinates s.blank_index).2 (s.coordinates ti).2 = 1)) := by
  refine ⟨List.indexOf t s.tiles, index_of_mem ht, ?_, ?_⟩ <;>
  · have hio := index_of_mem ht
    rw [move_tile, hio]
    by_cases hd :
      Nat.dist (s.blank_index / s.size) (List.indexOf t s.tiles / s.size) +
      Nat.dist (s.blank_index % s.size) (List.indexOf t s.tiles % s.size) = 1
    · simp [coordinates, hd]
    · simp [coordinates, hd]

theorem claim_C5_witness :
    ∃ ti,
      (⟨3, [1, 2, 3, 4, 0, 6, 7, 5, 8]⟩ : SlidePuzzleState).index_of 2 =
        some ti ∧
      ((⟨3, [1, 2, 3, 4, 0, 6, 7, 5, 8]⟩ : SlidePuzzleState).move_tile 2 =
        some (some ((⟨3, [1, 2, 3, 4, 0, 6, 7, 5, 8]⟩ :
          SlidePuzzleState).swap
          (⟨3, [1, 2, 3, 4, 0, 6, 7, 5, 8]⟩ : SlidePuzzleState).blank_index
          ti)) ↔
        Nat.dist ((⟨3, [1, 2, 3, 4, 0, 6, 7, 5, 8]⟩ :
            SlidePuzzleState).coordinates
            (⟨3, [1, 2, 3, 4, 0, 6, 7, 5, 8]⟩ :
              SlidePuzzleState).blank_index).1
          ((⟨3, [1, 2, 3, 4, 0, 6, 7, 5, 8]⟩ :
            SlidePuzzleState).coordinates ti).1 +
        Nat.dist ((⟨3, [1, 2, 3, 4, 0, 6, 7, 5, 8]⟩ :
            SlidePuzzleState).coordinates
            (⟨3, [1, 2, 3, 4, 0, 6, 7, 5, 8]⟩ :
              SlidePuzzleState).blank_index).2
          ((⟨3, [1, 2, 3, 4, 0, 6, 7, 5, 8]⟩ :
            SlidePuzzleState).coordinates ti).2 = 1) ∧
      ((⟨3, [1, 2, 3, 4, 0, 6, 7, 5, 8]⟩ : SlidePuzzleState).move_tile 2 =
        some none ↔
        ¬ (Nat.dist ((⟨3, [1, 2, 3, 4, 0, 6, 7, 5, 8]⟩ :
            SlidePuzzleState).coordinates
            (⟨3, [1, 2, 3, 4, 0, 6, 7, 5, 8]⟩ :
              SlidePuzzleState).blank_index).1
          ((⟨3, [1, 2, 3, 4, 0, 6, 7, 5, 8]⟩ :
            SlidePuzzleState).coordinates ti).1 +
        Nat.dist ((⟨3, [1, 2, 3, 4, 0, 6, 7, 5, 8]⟩ :
            SlidePuzzleState).coordinates
            (⟨3, [1, 2, 3, 4, 0, 6, 7, 5, 8]⟩ :
              SlidePuzzleState).blank_index).2
          ((⟨3, [1, 2, 3, 4, 0, 6, 7, 5, 8]⟩ :
            SlidePuzzleState).coordinates ti).2 = 1)) :=
  claim_C5 ⟨3, [1, 2, 3, 4, 0, 6, 7, 5, 8]⟩ 2 (by decide) (by decide)

/-- C10: on a valid state, moving a tile value that is not on the board
(equivalently, not in 0 .. size*size-1) hits the ValueError of tiles.index:
neither a new state nor the no-move value is produced. -/
theorem claim_C10 (s : SlidePuzzleState) (t : ℕ) (hv : s.valid = true)
    (hout : ¬ t < s.size * s.size) :
    t ∉ s.tiles ∧ s.move_tile t = none := by
  have hnm : t ∉ s.tiles := fun hmem => hout ((valid_mem_iff hv).mp hmem)
  refine ⟨hnm, ?_⟩
  rw [move_tile, index_of_not_mem hnm]

lemma cell_div {n a b : ℕ} (hn : 0 < n) (hb : b < n) : (a * n + b) / n = a := by
  rw [mul_comm, Nat.mul_add_div hn, Nat.div_eq_of_lt hb, Nat.add_zero]

lemma cell_mod {n a b : ℕ} (hb : b < n) : (a * n + b) % n = b := by
  rw [mul_comm, Nat.mul_add_mod, Nat.mod_eq_of_lt hb]

lemma cell_eq_iff {n a b a2 b2 : ℕ} (hn : 0 < n) (hb : b < n) (hb2 : b2 < n) :
    a * n + b = a2 * n + b2 ↔ a = a2 ∧ b = b2 := by
  constructor
  · intro h
    have h1 := congrArg (fun x => x / n) h
    have h2 := congrArg (fun x => x % n) h
    simp only [cell_div hn hb, cell_div hn hb2] at h1
    simp only [cell_mod hb, cell_mod hb2] at h2
    exact ⟨h1, h2⟩
  · rintro ⟨rfl, rfl⟩
    rfl

lemma cell_lt {n a b : ℕ} (ha : a < n) (hb : b < n) : a * n + b < n * n := by
  nlinarith

/-- Candidate cell scanned by one offset of legal_moves: the bounds check and
the target index nr * size + nc, together with the yielded pair. -/
def move_opt (s : SlidePuzzleState) (d : ℤ × ℤ) : Option (ℕ × SlidePuzzleState) :=
  let nr := ((s.blank_index / s.size : ℕ) : ℤ) + d.1
  let nc := ((s.blank_index % s.size : ℕ) : ℤ) + d.2
  if 0 ≤ nr ∧ nr < (s.size : ℤ) ∧ 0 ≤ nc ∧ nc < (s.size : ℤ) then
    some (s.tiles.getD (nr * s.size + nc).toNat 0,
          s.swap s.blank_index (nr * s.size + nc).toNat)
  else none

lemma legal_moves_eq_filterMap (s : SlidePuzzleState) :
    s.legal_moves =
      List.filterMap (move_opt s) [(-1, 0), (1, 0), (0, -1), (0, 1)] := rfl

lemma filterMap_cons_toList {α β : Type} (f : α → Option β) (a : α)
    (l : List α) :
    List.filterMap f (a :: l) = (f a).toList ++ List.filterMap f l := by
  rcases h : f a <;> simp [List.filterMap_cons, h]

/-- Blank-adjacent cells that exist on the grid, in the order scanned by
legal_moves: up, down, left, right. -/
def adj_cells (s : SlidePuzzleState) : List ℕ :=
  (if 1 ≤ s.blank_index / s.size then
    [(s.blank_index / s.size - 1) * s.size + s.blank_index % s.size] else []) ++
  (if s.blank_index / s.size + 1 < s.size then
    [(s.blank_index / s.size + 1) * s.size + s.blank_index % s.size] else []) ++
  (if 1 ≤ s.blank_index % s.size then
    [s.blank_index / s.size * s.size + (s.blank_index % s.size - 1)] else []) ++
  (if s.blank_index % s.size + 1 < s.size then
    [s.blank_index / s.size * s.size + (s.blank_index % s.size + 1)] else [])

lemma size_pos_of_blank_lt {s : SlidePuzzleState}
    (hb : s.blank_index < s.size * s.size) : 0 < s.size := by
  rcases Nat.eq_zero_or_pos s.size with h | h
  · rw [h] at hb
    omega
  · exact h

lemma blank_row_lt {s : SlidePuzzleState}
    (hb : s.blank_index < s.size * s.size) :
    s.blank_index / s.size < s.size :=
  (Nat.div_lt_iff_lt_mul (size_pos_of_blank_lt hb)).mpr hb

lemma move_opt_up (s : SlidePuzzleState)
    (hb : s.blank_index < s.size * s.size) :
    move_opt s (-1, 0) =
      if 1 ≤ s.blank_index / s.size then
        some (s.tiles.getD
                ((s.blank_index / s.size - 1) * s.size + s.blank_index % s.size)
                0,
              s.swap s.blank_index
                ((s.blank_index / s.size - 1) * s.size + s.blank_index % s.size))
      else none := by
  have hn := size_pos_of_blank_lt hb
  have hr := blank_row_lt hb
  have hc : s.blank_index % s.size < s.size := Nat.mod_lt _ hn
  simp only [move_opt]
  generalize s.blank_index / s.size = r at hr ⊢
  generalize s.blank_index % s.size = c at hc ⊢
  by_cases h1 : 1 ≤ r
  · rw [if_pos h1, if_pos (by refine ⟨?_, ?_, ?_, ?_⟩ <;> omega)]
    have e1 : ((r : ℕ) : ℤ) + -1 = ((r - 1 : ℕ) : ℤ) := by omega
    have e2 : ((c : ℕ) : ℤ) + 0 = ((c : ℕ) : ℤ) := by omega
    rw [e1, e2, ← Nat.cast_mul, ← Nat.cast_add, Int.toNat_natCast]
  · rw [if_neg h1, if_neg (by omega)]

lemma move_opt_down (s : SlidePuzzleState)
    (hb : s.blank_index < s.size * s.size) :
    move_opt s (1, 0) =
      if s.blank_index / s.size + 1 < s.size then
        some (s.tiles.getD
                ((s.blank_index / s.size + 1) * s.size + s.blank_index % s.size)
                0,
              s.swap s.blank_index
                ((s.blank_index / s.size + 1) * s.size + s.blank_index % s.size))
      else none := by
  have hn := size_pos_of_blank_lt hb
  have hr := blank_row_lt hb
  have hc : s.blank_index % s.size < s.size := Nat.mod_lt _ hn
  simp only [move_opt]
  generalize s.blank_index / s.size = r at hr ⊢
  generalize s.blank_index % s.size = c at hc ⊢
  by_cases h1 : r + 1 < s.size
  · rw [if_pos h1, if_pos (by refine ⟨?_, ?_, ?_, ?_⟩ <;> omega)]
    have e1 : ((r : ℕ) : ℤ) + 1 = ((r + 1 : ℕ) : ℤ) := by omega
    have e2 : ((c : ℕ) : ℤ) + 0 = ((c : ℕ) : ℤ) := by omega
    rw [e1, e2, ← Nat.cast_mul, ← Nat.cast_add, Int.toNat_natCast]
  · rw [if_neg h1, if_neg (by omega)]

lemma move_opt_left (s : SlidePuzzleState)
    (hb : s.blank_index < s.size * s.size) :
    move_opt s (0, -1) =
      if 1 ≤ s.blank_index % s.size then
        some (s.tiles.getD
                (s.blank_index / s.size * s.size + (s.blank_index % s.size - 1))
                0,
              s.swap s.blank_index
                (s.blank_index / s.size * s.size + (s.blank_index % s.size - 1)))
      else none := by
  have hn := size_pos_of_blank_lt hb
  have hr := blank_row_lt hb
  have hc : s.blank_index % s.size < s.size := Nat.mod_lt _ hn
  simp only [move_opt]
  generalize s.blank_index / s.size = r at hr ⊢
  generalize s.blank_index % s.size = c at hc ⊢
  by_cases h1 : 1 ≤ c
  · rw [if_pos h1, if_pos (by refine ⟨?_, ?_, ?_, ?_⟩ <;> omega)]
    have e1 : ((r : ℕ) : ℤ) + 0 = ((r : ℕ) : ℤ) := by omega
    have e2 : ((c : ℕ) : ℤ) + -1 = ((c - 1 : ℕ) : ℤ) := by omega
    rw [e1, e2, ← Nat.cast_mul, ← Nat.cast_add, Int.toNat_natCast]
  · rw [if_neg h1, if_neg (by omega)]

lemma move_opt_right (s : SlidePuzzleState)
    (hb : s.blank_index < s.size * s.size) :
    move_opt s (0, 1) =
      if s.blank_index % s.size + 1 < s.size then
        some (s.tiles.getD
                (s.blank_index / s.size * s.size + (s.blank_index % s.size + 1))
                0,
              s.swap s.blank_index
                (s.blank_index / s.size * s.size + (s.blank_index % s.size + 1)))
      else none := by
  have hn := size_pos_of_blank_lt hb
  have hr := blank_row_lt hb
  have hc : s.blank_index % s.size < s.size := Nat.mod_lt _ hn
  simp only [move_opt]
  generalize s.blank_index / s.size = r at hr ⊢
  generalize s.blank_index % s.size = c at hc ⊢
  by_cases h1 : c + 1 < s.size
  · rw [if_pos h1, if_pos (by refine ⟨?_, ?_, ?_, ?_⟩ <;> omega)]
    have e1 : ((r : ℕ) : ℤ) + 0 = ((r : ℕ) : ℤ) := by omega
    have e2 : ((c : ℕ) : ℤ) + 1 = ((c + 1 : ℕ) : ℤ) := by omega
    rw [e1, e2, ← Nat.cast_mul, ← Nat.cast_add, Int.toNat_natCast]
  · rw [if_neg h1, if_neg (by omega)]

/-- legal_moves scans the 2-4 existing blank-adjacent cells in the order up,
down, left, right and yields, for each, the tile there and the state with
that tile and the blank swapped. -/
lemma legal_moves_eq_adj {s : SlidePuzzleState}
    (hb : s.blank_index < s.size * s.size) :
    s.legal_moves = (adj_cells s).map
      (fun ni => (s.tiles.getD ni 0, s.swap s.blank_index ni)) := by
  rw [legal_moves_eq_filterMap, filterMap_cons_toList, filterMap_cons_toList,
    filterMap_cons_toList, filterMap_cons_toList, List.filterMap_nil,
    move_opt_up s hb, move_opt_down s hb, move_opt_left s hb,
    move_opt_right s hb]
  unfold adj_cells
  simp only [List.map_append, List.append_nil]
  have htl : ∀ (p : Prop) (hp : Decidable p) (x : ℕ × SlidePuzzleState),
      (if p then some x else none).toList = if p then [x] else [] := by
    intro p hp x
    split_ifs <;> rfl
  have hmp : ∀ (p : Prop) (hp : Decidable p) (y : ℕ),
      (if p then [y] else []).map
        (fun ni => (s.tiles.getD ni 0, s.swap s.blank_index ni)) =
      if p then [(s.tiles.getD y 0, s.swap s.blank_index y)] else [] := by
    intro p hp y
    split_ifs <;> rfl
  rw [htl, htl, htl, htl, hmp, hmp, hmp, hmp]
  simp [List.append_assoc]

lemma mem_if_singleton {p : Prop} [Decidable p] {x a : ℕ} :
    a ∈ (if p then [x] else []) ↔ p ∧ a = x := by
  split_ifs with h <;> simp [h]

lemma disjoint_if_singleton {p q : Prop} [Decidable p] [Decidable q]
    {x y : ℕ} (h : p → q → x ≠ y) :
    List.Disjoint (if p then [x] else []) (if q then [y] else []) := by
  intro a ha hb2
  rw [mem_if_singleton] at ha hb2
  exact h ha.1 hb2.1 (by rw [← ha.2, hb2.2])

lemma nodup_if_singleton {p : Prop} [Decidable p] {x : ℕ} :
    (if p then [x] else []).Nodup := by
  split_ifs <;> simp

lemma adj_cells_nodup {s : SlidePuzzleState}
    (hb : s.blank_index < s.size * s.size) : (adj_cells s).Nodup := by
  have hn := size_pos_of_blank_lt hb
  have hr := blank_row_lt hb
  have hc : s.blank_index % s.size < s.size := Nat.mod_lt _ hn
  unfold adj_cells
  generalize s.blank_index / s.size = r at hr ⊢
  generalize s.blank_index % s.size = c at hc ⊢
  have hd12 : List.Disjoint
      (if 1 ≤ r then [(r - 1) * s.size + c] else [])
      (if r + 1 < s.size then [(r + 1) * s.size + c] else []) :=
    disjoint_if_singleton (fun h1 _ heq => by
      rw [cell_eq_iff hn hc hc] at heq; omega)
  have hd13 : List.Disjoint
      (if 1 ≤ r then [(r - 1) * s.size + c] else [])
      (if 1 ≤ c then [r * s.size + (c - 1)] else []) :=
    disjoint_if_singleton (fun h1 _ heq => by
      rw [cell_eq_iff hn hc (by omega)] at heq; omega)
  have hd14 : List.Disjoint
      (if 1 ≤ r then [(r - 1) * s.size + c] else [])
      (if c + 1 < s.size then [r * s.size + (c + 1)] else []) :=
    disjoint_if_singleton (fun h1 h2 heq => by
      rw [cell_eq_iff hn hc h2] at heq; omega)
  have hd23 : List.Disjoint
      (if r + 1 < s.size then [(r + 1) * s.size + c] else [])
      (if 1 ≤ c then [r * s.size + (c - 1)] else []) :=
    disjoint_if_singleton (fun _ _ heq => by
      rw [cell_eq_iff hn hc (by omega)] at heq; omega)
  have hd24 : List.Disjoint
      (if r + 1 < s.size then [(r + 1) * s.size + c] else [])
      (if c + 1 < s.size then [r * s.size + (c + 1)] else []) :=
    disjoint_if_singleton (fun _ h2 heq => by
      rw [cell_eq_iff hn hc h2] at heq; omega)
  have hd34 : List.Disjoint
      (if 1 ≤ c then [r * s.size + (c - 1)] else [])
      (if c + 1 < s.size then [r * s.size + (c + 1)] else []) :=
    disjoint_if_singleton (fun h1 _ heq => by
      rw [cell_eq_iff hn (by omega) (by omega)] at heq; omega)
  simp only [List.nodup_append, List.disjoint_append_left,
    List.disjoint_append_right, nodup_if_singleton, true_and]
  repeat' apply And.intro
  all_goals first
  | exact hd12
  | exact hd13
  | exact hd14
  | exact hd23
  | exact hd24
  | exact hd34

lemma adj_cells_mem {s : SlidePuzzleState}
    (hb : s.blank_index < s.size * s.size) (ni : ℕ) :
    ni ∈ adj_cells s ↔
      ni < s.size * s.size ∧
      Nat.dist (s.blank_index / s.size) (ni / s.size) +
      Nat.dist (s.blank_index % s.size) (ni % s.size) = 1 := by
  have hn := size_pos_of_blank_lt hb
  have hr := blank_row_lt hb
  have hc : s.blank_index % s.size < s.size := Nat.mod_lt _ hn
  unfold adj_cells
  generalize s.blank_index / s.size = r at hr ⊢
  generalize s.blank_index % s.size = c at hc ⊢
  constructor
  · intro hmem
    simp only [List.mem_append, mem_if_singleton] at hmem
    rcases hmem with ((⟨h1, rfl⟩ | ⟨h1, rfl⟩) | ⟨h1, rfl⟩) | ⟨h1, rfl⟩
    · refine ⟨cell_lt (by omega) hc, ?_⟩
      rw [cell_div hn hc, cell_mod hc]
      simp only [Nat.dist]
      omega
    · refine ⟨cell_lt (by omega) hc, ?_⟩
      rw [cell_div hn hc, cell_mod hc]
      simp only [Nat.dist]
      omega
    · refine ⟨cell_lt hr (by omega), ?_⟩
      rw [cell_div hn (by omega), cell_mod (by omega)]
      simp only [Nat.dist]
      omega
    · refine ⟨cell_lt hr h1, ?_⟩
      rw [cell_div hn h1, cell_mod h1]
      simp only [Nat.dist]
      omega
  · rintro ⟨hlt, hdist⟩
    have hri : ni / s.size < s.size := (Nat.div_lt_iff_lt_mul hn).mpr hlt
    have hci : ni % s.size < s.size := Nat.mod_lt _ hn
    have hrec : ni / s.size * s.size + ni % s.size = ni := by
      rw [mul_comm]
      exact Nat.div_add_mod ni s.size
    simp only [Nat.dist] at hdist
    generalize ni / s.size = ri at hri hrec hdist
    generalize ni % s.size = ci at hci hrec hdist
    have hcase :
        (1 ≤ r ∧ ri = r - 1 ∧ ci = c) ∨
        (ri = r + 1 ∧ ci = c) ∨
        (1 ≤ c ∧ ri = r ∧ ci = c - 1) ∨
        (ri = r ∧ ci = c + 1) := by omega
    simp only [List.mem_append, mem_if_singleton]
    rcases hcase with ⟨h1, h2, h3⟩ | ⟨h2, h3⟩ | ⟨h1, h2, h3⟩ | ⟨h2, h3⟩
    · exact Or.inl (Or.inl (Or.inl ⟨h1, by rw [← hrec, h2, h3]⟩))
    · exact Or.inl (Or.inl (Or.inr ⟨by omega, by rw [← hrec, h2, h3]⟩))
    · exact Or.inl (Or.inr ⟨h1, by rw [← hrec, h2, h3]⟩)
    · exact Or.inr ⟨by omega, by rw [← hrec, h2, h3]⟩

lemma adj_cells_length {s : SlidePuzzleState}
    (hb : s.blank_index < s.size * s.size) (hsz : 2 ≤ s.size) :
    2 ≤ (adj_cells s).length ∧ (adj_cells s).length ≤ 4 := by
  have hn := size_pos_of_blank_lt hb
  have hr := blank_row_lt hb
  have hc : s.blank_index % s.size < s.size := Nat.mod_lt _ hn
  unfold adj_cells
  generalize s.blank_index / s.size = r at hr ⊢
  generalize s.blank_index % s.size = c at hc ⊢
  have hd1 : 1 ≤ r ∨ r + 1 < s.size := by omega
  have hd2 : 1 ≤ c ∨ c + 1 < s.size := by omega
  simp only [List.length_append]
  split_ifs <;> simp <;> omega

/-- C6: on a valid state of size at least two, legal_moves yields exactly one
(tile, resultingState) pair for each grid cell orthogonally adjacent to the
blank (a cell in range whose coordinates are at Manhattan distance one from
the blank), in the deterministic order up, down, left, right with off-grid
directions skipped; hence between 2 and 4 pairs, and each resulting state is
the receiver with that tile and the blank swapped. -/
theorem claim_C6 (s : SlidePuzzleState) (hv : s.valid = true)
    (hsz : 2 ≤ s.size) :
    s.legal_moves = (adj_cells s).map
      (fun ni => (s.tiles.getD ni 0, s.swap s.blank_index ni)) ∧
    (adj_cells s).Nodup ∧
    (∀ ni, ni ∈ adj_cells s ↔
      ni < s.size * s.size ∧
      Nat.dist (s.coordinates s.blank_index).1 (s.coordinates ni).1 +
      Nat.dist (s.coordinates s.blank_index).2 (s.coordinates ni).2 = 1) ∧
    2 ≤ (adj_cells s).length ∧ (adj_cells s).length ≤ 4 := by
  have hb : s.blank_index < s.size * s.size := by
    rw [← valid_length hv]
    exact blank_index_lt hv (by omega)
  exact ⟨legal_moves_eq_adj hb, adj_cells_nodup hb,
    fun ni => by simpa [coordinates] using adj_cells_mem hb ni,
    (adj_cells_length hb hsz).1, (adj_cells_length hb hsz).2⟩

theorem claim_C6_witness :
    (⟨3, [1, 2, 3, 4, 0, 6, 7, 5, 8]⟩ : SlidePuzzleState).legal_moves =
      (adj_cells ⟨3, [1, 2, 3, 4, 0, 6, 7, 5, 8]⟩).map
        (fun ni =>
          ((⟨3, [1, 2, 3, 4, 0, 6, 7, 5, 8]⟩ :
              SlidePuzzleState).tiles.getD ni 0,
           (⟨3, [1, 2, 3, 4, 0, 6, 7, 5, 8]⟩ : SlidePuzzleState).swap
             (⟨3, [1, 2, 3, 4, 0, 6, 7, 5, 8]⟩ :
               SlidePuzzleState).blank_index ni)) ∧
    (adj_cells ⟨3, [1, 2, 3, 4, 0, 6, 7, 5, 8]⟩).Nodup ∧
    (∀ ni, ni ∈ adj_cells ⟨3, [1, 2, 3, 4, 0, 6, 7, 5, 8]⟩ ↔
      ni < 3 * 3 ∧
      Nat.dist ((⟨3, [1, 2, 3, 4, 0, 6, 7, 5, 8]⟩ :
          SlidePuzzleState).coordinates
          (⟨3, [1, 2, 3, 4, 0, 6, 7, 5, 8]⟩ :
            SlidePuzzleState).blank_index).1
        ((⟨3, [1, 2, 3, 4, 0, 6, 7, 5, 8]⟩ :
          SlidePuzzleState).coordinates ni).1 +
      Nat.dist ((⟨3, [1, 2, 3, 4, 0, 6, 7, 5, 8]⟩ :
          SlidePuzzleState).coordinates
          (⟨3, [1, 2, 3, 4, 0, 6, 7, 5, 8]⟩ :
            SlidePuzzleState).blank_index).2
        ((⟨3, [1, 2, 3, 4, 0, 6, 7, 5, 8]⟩ :
          SlidePuzzleState).coordinates ni).2 = 1) ∧
    2 ≤ (adj_cells ⟨3, [1, 2, 3, 4, 0, 6, 7, 5, 8]⟩).length ∧
    (adj_cells ⟨3, [1, 2, 3, 4, 0, 6, 7, 5, 8]⟩).length ≤ 4 :=
  claim_C6 ⟨3, [1, 2, 3, 4, 0, 6, 7, 5, 8]⟩ (by decide) (by decide)

theorem claim_C10_witness :
    9 ∉ (⟨3, [1, 2, 3, 4, 0, 6, 7, 5, 8]⟩ : SlidePuzzleState).tiles ∧
    (⟨3, [1, 2, 3, 4, 0, 6, 7, 5, 8]⟩ : SlidePuzzleState).move_tile 9 = none :=
  claim_C10 ⟨3, [1, 2, 3, 4, 0, 6, 7, 5, 8]⟩ 9 (by decide) (by decide)

/-- Cost contributed by value v sitting at cell idx, as computed inside
manhattan_distance: zero for the blank, otherwise the Manhattan distance
from idx to the goal cell v - 1. -/
def val_cost (n idx v : ℕ) : ℕ :=
  if v = 0 then 0
  else Nat.dist ((v - 1) / n) (idx / n) + Nat.dist ((v - 1) % n) (idx % n)

lemma manhattan_eq_sum (s : SlidePuzzleState) :
    s.manhattan_distance =
      ∑ idx ∈ Finset.range s.tiles.length,
        val_cost s.size idx (s.tiles.getD idx 0) := rfl

lemma solved_tiles_perm {n : ℕ} (h : 1 ≤ n * n) :
    (solved_tiles n).Perm (List.range (n * n)) := by
  obtain ⟨m, hm⟩ : ∃ m, n * n = m + 1 := ⟨_, (Nat.succ_pred_eq_of_pos h).symm⟩
  unfold solved_tiles
  rw [hm, List.range_succ_eq_map]
  simpa using List.perm_append_singleton 0 (List.map Nat.succ (List.range m))

lemma valid_solved {n : ℕ} (h : 1 ≤ n) : (solved n).valid = true := by
  rw [valid_iff]
  have hp := @solved_tiles_perm n (by nlinarith)
  constructor
  · show (solved_tiles n).length = n * n
    rw [hp.length_eq]
    simp
  · intro v hv2
    show v ∈ solved_tiles n
    exact hp.symm.subset (by simpa using hv2)

lemma solved_tiles_indexOf {n v : ℕ} (h1 : 1 ≤ v) (h2 : v < n * n) :
    List.indexOf v (solved_tiles n) = v - 1 := by
  have hnn : 1 ≤ n * n := by omega
  have hnd : (solved_tiles n).Nodup :=
    (solved_tiles_perm hnn).nodup_iff.mpr (List.nodup_range _)
  have hlen : (solved_tiles n).length = n * n := solved_tiles_length hnn
  have hv1 : v - 1 < (solved_tiles n).length := by omega
  have hval : (solved_tiles n)[v - 1] = v := by
    have := @solved_tiles_getElem? n (v - 1) (by omega)
    rw [List.getElem?_eq_getElem hv1] at this
    have hx := Option.some.inj this
    rw [hx, if_neg (by omega)]
    omega
  have hmem : v ∈ solved_tiles n := hval ▸ List.getElem_mem hv1
  have hio := List.indexOf_lt_length.mpr hmem
  have : (solved_tiles n)[List.indexOf v (solved_tiles n)] = v :=
    List.getElem_indexOf hio
  exact (hnd.getElem_inj_iff.mp (this.trans hval.symm))

/-- Manhattan heuristic as the specification words it: the sum, over all
cells holding a non-blank tile, of the Manhattan grid distance between the
cell and the position of that tile in the canonical solved configuration. -/
def manhattan_spec (s : SlidePuzzleState) : ℕ :=
  ∑ idx ∈ Finset.range (s.size * s.size),
    if s.tiles.getD idx 0 = 0 then 0
    else
      Nat.dist (List.indexOf (s.tiles.getD idx 0) (solved_tiles s.size) / s.size)
        (idx / s.size) +
      Nat.dist (List.indexOf (s.tiles.getD idx 0) (solved_tiles s.size) % s.size)
        (idx % s.size)

lemma manhattan_eq_spec {s : SlidePuzzleState} (hv : s.valid = true) :
    s.manhattan_distance = manhattan_spec s := by
  rw [manhattan_eq_sum, valid_length hv]
  apply Finset.sum_congr rfl
  intro idx hidx
  rw [Finset.mem_range] at hidx
  unfold val_cost
  by_cases h0 : s.tiles.getD idx 0 = 0
  · rw [if_pos h0, if_pos h0]
  · rw [if_neg h0, if_neg h0]
    have hlt : idx < s.tiles.length := by rw [valid_length hv]; exact hidx
    have hmem : s.tiles.getD idx 0 ∈ s.tiles := by
      rw [List.getD_eq_getElem?_getD, List.getElem?_eq_getElem hlt]
      exact List.getElem_mem hlt
    have hrange : s.tiles.getD idx 0 < s.size * s.size :=
      (valid_mem_iff hv).mp hmem
    rw [solved_tiles_indexOf (by omega) hrange]

lemma swap_tiles_length (s : SlidePuzzleState) (a b : ℕ) :
    (s.swap a b).tiles.length = s.tiles.length := by
  simp [swap]

lemma swap_getD {s : SlidePuzzleState} {a b : ℕ} (idx : ℕ)
    (ha : a < s.tiles.length) (hb : b < s.tiles.length) :
    (s.swap a b).tiles.getD idx 0 =
      if idx = b then s.tiles.getD a 0
      else if idx = a then s.tiles.getD b 0
      else s.tiles.getD idx 0 := by
  show ((s.tiles.set a (s.tiles.getD b 0)).set b (s.tiles.getD a 0)).getD idx 0 = _
  rw [List.getD_eq_getElem?_getD, List.getElem?_set, List.getElem?_set]
  by_cases h1 : idx = b
  · subst h1
    rw [if_pos rfl, if_pos (by simpa using hb)]
    simp
  · rw [if_neg (fun h => h1 h.symm)]
    by_cases h2 : idx = a
    · subst h2
      rw [if_pos rfl, if_pos ha, if_neg h1, if_pos rfl]
      simp
    · rw [if_neg (fun h => h2 h.symm), if_neg h1, if_neg h2,
        List.getD_eq_getElem?_getD]

/-- Reachability in exactly k legal moves. -/
def ReachIn : ℕ → SlidePuzzleState → SlidePuzzleState → Prop
  | 0, s, t => t = s
  | k + 1, s, t => ∃ p ∈ s.legal_moves, ReachIn k p.2 t

lemma legal_moves_size_zero {s : SlidePuzzleState} (h : s.size = 0) :
    s.legal_moves = [] := by
  rw [legal_moves_eq_filterMap]
  have hnone : ∀ d, move_opt s d = none := by
    intro d
    unfold move_opt
    rw [if_neg]
    rintro ⟨h1, h2, h3, h4⟩
    rw [h] at h2
    omega
  simp [List.filterMap_cons, hnone]

lemma size_pos_of_legal_move {s : SlidePuzzleState}
    {p : ℕ × SlidePuzzleState} (hp : p ∈ s.legal_moves) : 1 ≤ s.size := by
  by_contra h
  push_neg at h
  have h0 : s.size = 0 := by omega
  rw [legal_moves_size_zero h0] at hp
  simp at hp

lemma mem_legal_moves_shape {s : SlidePuzzleState} (hv : s.valid = true)
    {p : ℕ × SlidePuzzleState} (hp : p ∈ s.legal_moves) :
    ∃ ni, ni < s.size * s.size ∧
      Nat.dist (s.blank_index / s.size) (ni / s.size) +
      Nat.dist (s.blank_index % s.size) (ni % s.size) = 1 ∧
      p = (s.tiles.getD ni 0, s.swap s.blank_index ni) := by
  have hb : s.blank_index < s.size * s.size := by
    rw [← valid_length hv]
    exact blank_index_lt hv (size_pos_of_legal_move hp)
  rw [legal_moves_eq_adj hb] at hp
  rw [List.mem_map] at hp
  obtain ⟨ni, hni, hpe⟩ := hp
  rw [adj_cells_mem hb] at hni
  exact ⟨ni, hni.1, hni.2, hpe.symm⟩

lemma legal_move_valid {s : SlidePuzzleState} (hv : s.valid = true)
    {p : ℕ × SlidePuzzleState} (hp : p ∈ s.legal_moves) :
    p.2.valid = true ∧ p.2.size = s.size := by
  have hb : s.blank_index < s.size * s.size := by
    rw [← valid_length hv]
    exact blank_index_lt hv (size_pos_of_legal_move hp)
  obtain ⟨ni, hni, hadj, hpe⟩ := mem_legal_moves_shape hv hp
  rw [hpe]
  exact ⟨swap_valid hv hb hni, rfl⟩

lemma val_cost_triangle {n bi ni v : ℕ} (hv0 : v ≠ 0)
    (hadj : Nat.dist (bi / n) (ni / n) + Nat.dist (bi % n) (ni % n) = 1) :
    val_cost n bi v ≤ val_cost n ni v + 1 ∧
    val_cost n ni v ≤ val_cost n bi v + 1 := by
  unfold val_cost
  rw [if_neg hv0, if_neg hv0]
  simp only [Nat.dist] at hadj ⊢
  omega

lemma blank_getElem {s : SlidePuzzleState} (hv : s.valid = true)
    (hn : 1 ≤ s.size) (hlt : s.blank_index < s.tiles.length) :
    s.tiles[s.blank_index] = 0 := by
  have := tiles_blank_index hv hn
  rw [List.getD_eq_getElem?_getD, List.getElem?_eq_getElem hlt] at this
  simpa using this

/-- Swapping the blank with an adjacent cell changes the Manhattan heuristic
by at most one: the only cost term that changes is the moved tile, and its
cell moves by one grid step. -/
lemma manhattan_swap_core {s : SlidePuzzleState} (hv : s.valid = true)
    {ni : ℕ} (hni : ni < s.size * s.size)
    (hadj : Nat.dist (s.blank_index / s.size) (ni / s.size) +
            Nat.dist (s.blank_index % s.size) (ni % s.size) = 1) :
    (s.swap s.blank_index ni).manhattan_distance ≤ s.manhattan_distance + 1 ∧
    s.manhattan_distance ≤ (s.swap s.blank_index ni).manhattan_distance + 1 := by
  have hn : 1 ≤ s.size := by
    rcases Nat.eq_zero_or_pos s.size with h | h
    · rw [h] at hni
      omega
    · exact h
  have hlen := valid_length hv
  have hbiL : s.blank_index < s.tiles.length := blank_index_lt hv hn
  have hb : s.blank_index < s.size * s.size := by omega
  have hniL : ni < s.tiles.length := by omega
  have hne : s.blank_index ≠ ni := by
    intro h
    rw [h, Nat.dist_self, Nat.dist_self] at hadj
    omega
  have hblank : s.tiles.getD s.blank_index 0 = 0 := tiles_blank_index hv hn
  have hv0 : s.tiles.getD ni 0 ≠ 0 := by
    intro h0
    have hg : s.tiles[ni] = 0 := by
      rw [List.getD_eq_getElem?_getD, List.getElem?_eq_getElem hniL] at h0
      simpa using h0
    have hgb : s.tiles[s.blank_index] = 0 := blank_getElem hv hn hbiL
    exact hne ((valid_nodup hv).getElem_inj_iff.mp (hgb.trans hg.symm))
  have hlen2 : (s.swap s.blank_index ni).tiles.length = s.tiles.length :=
    swap_tiles_length s _ _
  have hsz2 : (s.swap s.blank_index ni).size = s.size := rfl
  rw [manhattan_eq_sum, manhattan_eq_sum, hlen2, hsz2]
  have hbiF : s.blank_index ∈ Finset.range s.tiles.length :=
    Finset.mem_range.mpr hbiL
  have hniF : ni ∈ (Finset.range s.tiles.length).erase s.blank_index :=
    Finset.mem_erase.mpr ⟨fun h => hne h.symm, Finset.mem_range.mpr hniL⟩
  have split2 : ∀ f : ℕ → ℕ,
      ∑ idx ∈ Finset.range s.tiles.length, f idx =
      ∑ idx ∈ ((Finset.range s.tiles.length).erase s.blank_index).erase ni,
        f idx + f ni + f s.blank_index := by
    intro f
    rw [Finset.sum_erase_add _ _ hniF, Finset.sum_erase_add _ _ hbiF]
  rw [split2, split2]
  have hrest : ∀ idx ∈ ((Finset.range s.tiles.length).erase
      s.blank_index).erase ni,
      val_cost s.size idx ((s.swap s.blank_index ni).tiles.getD idx 0) =
      val_cost s.size idx (s.tiles.getD idx 0) := by
    intro idx hidx
    rw [Finset.mem_erase, Finset.mem_erase] at hidx
    rw [swap_getD idx hbiL hniL, if_neg hidx.1, if_neg hidx.2.1]
  rw [Finset.sum_congr rfl hrest]
  have hni_new : (s.swap s.blank_index ni).tiles.getD ni 0 = 0 := by
    rw [swap_getD ni hbiL hniL, if_pos rfl]
    exact hblank
  have hbi_new : (s.swap s.blank_index ni).tiles.getD s.blank_index 0 =
      s.tiles.getD ni 0 := by
    rw [swap_getD _ hbiL hniL, if_neg hne, if_pos rfl]
  rw [hni_new, hbi_new, hblank]
  have htri := @val_cost_triangle s.size s.blank_index ni _ hv0 hadj
  have hz : val_cost s.size ni 0 = 0 := by simp [val_cost]
  have hz2 : val_cost s.size s.blank_index 0 = 0 := by simp [val_cost]
  rw [hz, hz2]
  omega

lemma manhattan_consistent {s : SlidePuzzleState} (hv : s.valid = true)
    {p : ℕ × SlidePuzzleState} (hp : p ∈ s.legal_moves) :
    s.manhattan_distance ≤ p.2.manhattan_distance + 1 ∧
    p.2.manhattan_distance ≤ s.manhattan_distance + 1 := by
  obtain ⟨ni, hni, hadj, hpe⟩ := mem_legal_moves_shape hv hp
  rw [hpe]
  exact ⟨(manhattan_swap_core hv hni hadj).2,
    (manhattan_swap_core hv hni hadj).1⟩

lemma manhattan_admissible {s : SlidePuzzleState} (hv : s.valid = true)
    {k : ℕ} (h : ReachIn k s (solved s.size)) :
    s.manhattan_distance ≤ k := by
  induction k generalizing s with
  | zero =>
    have hh : solved s.size = s := h
    have hz : s.manhattan_distance = 0 := by
      conv_lhs => rw [← hh]
      exact manhattan_solved s.size
    omega
  | succ k ih =>
    obtain ⟨p, hp, hreach⟩ := h
    obtain ⟨hval2, hsz2⟩ := legal_move_valid hv hp
    have h1 := (manhattan_consistent hv hp).1
    have h2 : p.2.manhattan_distance ≤ k := by
      apply ih hval2
      rw [show p.2.size = s.size from hsz2]
      exact hreach
    omega

/-- C4: the heuristic equals the specified sum of per-tile Manhattan
distances to goal positions, is consistent across every legal move, and is
admissible for the canonical goal. -/
theorem claim_C4 (s : SlidePuzzleState) (hv : s.valid = true) :
    s.manhattan_distance = manhattan_spec s ∧
    (∀ p ∈ s.legal_moves,
      s.manhattan_distance ≤ p.2.manhattan_distance + 1) ∧
    (∀ k, ReachIn k s (solved s.size) → s.manhattan_distance ≤ k) :=
  ⟨manhattan_eq_spec hv,
   fun _ hp => (manhattan_consistent hv hp).1,
   fun _ h => manhattan_admissible hv h⟩

theorem claim_C4_witness :
    (⟨3, [1, 2, 3, 4, 0, 6, 7, 5, 8]⟩ :
        SlidePuzzleState).manhattan_distance =
      manhattan_spec ⟨3, [1, 2, 3, 4, 0, 6, 7, 5, 8]⟩ ∧
    (∀ p ∈ (⟨3, [1, 2, 3, 4, 0, 6, 7, 5, 8]⟩ :
        SlidePuzzleState).legal_moves,
      (⟨3, [1, 2, 3, 4, 0, 6, 7, 5, 8]⟩ :
          SlidePuzzleState).manhattan_distance ≤
        p.2.manhattan_distance + 1) ∧
    (∀ k, ReachIn k ⟨3, [1, 2, 3, 4, 0, 6, 7, 5, 8]⟩ (solved 3) →
      (⟨3, [1, 2, 3, 4, 0, 6, 7, 5, 8]⟩ :
          SlidePuzzleState).manhattan_distance ≤ k) :=
  claim_C4 ⟨3, [1, 2, 3, 4, 0, 6, 7, 5, 8]⟩ (by decide)

/-- Random walk respecting the shuffle policy: each step is a legal move,
and a step never re-moves the tile moved immediately before it unless every
current legal move would move that tile. -/
inductive PolicyWalk :
    SlidePuzzleState → Option ℕ → ℕ → SlidePuzzleState → Prop where
  | zero (s : SlidePuzzleState) (last : Option ℕ) : PolicyWalk s last 0 s
  | step {s s2 res : SlidePuzzleState} {t : ℕ} {last : Option ℕ} {k : ℕ} :
      (t, s2) ∈ s.legal_moves →
      (∀ lt, last = some lt → t ≠ lt ∨ ∀ q ∈ s.legal_moves, q.1 = lt) →
      PolicyWalk s2 (some t) k res →
      PolicyWalk s last (k + 1) res

lemma policy_walk_reach {s res : SlidePuzzleState} {last : Option ℕ} {k : ℕ}
    (h : PolicyWalk s last k res) : ReachIn k s res := by
  induction h with
  | zero s last => rfl
  | step hmem _ _ ih => exact ⟨_, hmem, ih⟩

lemma legal_moves_length_pos {s : SlidePuzzleState} (hv : s.valid = true)
    (hsz : 2 ≤ s.size) : 0 < s.legal_moves.length := by
  have hb : s.blank_index < s.size * s.size := by
    rw [← valid_length hv]
    exact blank_index_lt hv (by omega)
  rw [legal_moves_eq_adj hb, List.length_map]
  have := (adj_cells_length hb hsz).1
  omega

lemma shuffle_step_spec {state : SlidePuzzleState} (hv : state.valid = true)
    (hsz : 2 ≤ state.size) (last : Option ℕ) (r : ℕ) :
    ∃ t s2, shuffle_step state last r = some (t, s2) ∧
      (t, s2) ∈ state.legal_moves ∧
      (∀ lt, last = some lt → t ≠ lt ∨ ∀ q ∈ state.legal_moves, q.1 = lt) := by
  have hpos := legal_moves_length_pos hv hsz
  rcases last with _ | lt
  · simp only [shuffle_step]
    have hlt : r % state.legal_moves.length < state.legal_moves.length :=
      Nat.mod_lt _ hpos
    rw [List.getElem?_eq_getElem hlt]
    refine ⟨state.legal_moves[r % state.legal_moves.length].1,
      state.legal_moves[r % state.legal_moves.length].2, by simp, ?_, ?_⟩
    · simpa using List.getElem_mem hlt
    · rintro lt ⟨⟩
  · simp only [shuffle_step]
    by_cases hfl : (state.legal_moves.filter
        (fun item : ℕ × SlidePuzzleState => item.1 ≠ lt)).isEmpty = true
    · rw [if_pos hfl]
      have hlt2 : r % state.legal_moves.length < state.legal_moves.length :=
        Nat.mod_lt _ hpos
      rw [List.getElem?_eq_getElem hlt2]
      refine ⟨state.legal_moves[r % state.legal_moves.length].1,
        state.legal_moves[r % state.legal_moves.length].2, by simp, ?_, ?_⟩
      · simpa using List.getElem_mem hlt2
      · intro lt2 hlt3
        refine Or.inr ?_
        rw [List.isEmpty_iff, List.filter_eq_nil] at hfl
        intro q hq
        have := hfl q hq
        simp at this
        cases hlt3
        exact this
    · rw [if_neg hfl]
      generalize hFL : state.legal_moves.filter
          (fun item : ℕ × SlidePuzzleState => item.1 ≠ lt) = fl at hfl
      have hfpos : 0 < fl.length := by
        rcases fl with _ | ⟨a, l2⟩
        · simp at hfl
        · simp
      have hlt2 : r % fl.length < fl.length := Nat.mod_lt _ hfpos
      rw [List.getElem?_eq_getElem hlt2]
      have hqm : fl[r % fl.length] ∈ fl := List.getElem_mem hlt2
      have hqm2 : fl[r % fl.length] ∈ state.legal_moves.filter
          (fun item : ℕ × SlidePuzzleState => item.1 ≠ lt) := by
        rw [hFL]
        exact hqm
      rw [List.mem_filter] at hqm2
      refine ⟨fl[r % fl.length].1, fl[r % fl.length].2, by simp,
        by simpa using hqm2.1, ?_⟩
      intro lt2 hlt3
      refine Or.inl ?_
      have h2 := hqm2.2
      simp at h2
      cases hlt3
      exact h2

lemma shuffle_go_spec (rng : ℕ → ℕ) :
    ∀ (k : ℕ) (state : SlidePuzzleState) (last : Option ℕ) (t0 : ℕ),
      state.valid = true → 2 ≤ state.size →
      ∃ res, shuffle_go rng state last k t0 = some res ∧
        PolicyWalk state last k res := by
  intro k
  induction k with
  | zero =>
    intro state last t0 hv hsz
    exact ⟨state, rfl, PolicyWalk.zero state last⟩
  | succ k ih =>
    intro state last t0 hv hsz
    obtain ⟨t, s2, hstep, hmem, hpol⟩ :=
      shuffle_step_spec hv hsz last (rng t0)
    obtain ⟨hv2, hsz2⟩ := legal_move_valid hv hmem
    have hv2b : s2.valid = true := hv2
    have hsz2b : s2.size = state.size := hsz2
    obtain ⟨res, hgo, hwalk⟩ := ih s2 (some t) (t0 + 1) hv2b (by omega)
    refine ⟨res, ?_, PolicyWalk.step hmem hpol hwalk⟩
    show shuffle_go rng state last (k + 1) t0 = some res
    rw [show shuffle_go rng state last (k + 1) t0 =
      (match shuffle_step state last (rng t0) with
       | none => none
       | some (tile, next) => shuffle_go rng next (some tile) k (t0 + 1))
      from rfl, hstep]
    exact hgo

/-- C8: shuffle performs a walk of exactly the requested number of legal
moves, following the policy that the tile moved in the previous step is not
immediately moved again unless excluding it would leave no candidate; the
result is therefore reachable from the receiver in exactly that many moves. -/
theorem claim_C8 (s : SlidePuzzleState) (hv : s.valid = true)
    (hsz : 2 ≤ s.size) (k : ℕ) (rng : ℕ → ℕ) :
    ∃ res, s.shuffle k rng = some res ∧ PolicyWalk s none k res ∧
      ReachIn k s res := by
  obtain ⟨res, hgo, hwalk⟩ := shuffle_go_spec rng k s none 0 hv hsz
  exact ⟨res, hgo, hwalk, policy_walk_reach hwalk⟩

theorem claim_C8_witness :
    ∃ res, (solved 3).shuffle 4 (fun t => t * 5 + 2) = some res ∧
      PolicyWalk (solved 3) none 4 res ∧ ReachIn 4 (solved 3) res :=
  claim_C8 (solved 3) (by decide) (by decide) 4 (fun t => t * 5 + 2)

lemma ReachIn_trans {j k : ℕ} {s u t : SlidePuzzleState}
    (h1 : ReachIn j s u) (h2 : ReachIn k u t) : ReachIn (j + k) s t := by
  induction j generalizing s with
  | zero =>
    have hh : u = s := h1
    rw [Nat.zero_add, ← hh]
    exact h2
  | succ j ih =>
    obtain ⟨p, hp, hr⟩ := h1
    have h3 : ReachIn (j + k + 1) s t := ⟨p, hp, ih hr⟩
    rw [show j + 1 + k = j + k + 1 from by omega]
    exact h3

lemma ReachIn_size {k : ℕ} {s t : SlidePuzzleState} (hv : s.valid = true)
    (h : ReachIn k s t) : t.valid = true ∧ t.size = s.size := by
  induction k generalizing s with
  | zero =>
    have hh : t = s := h
    rw [hh]
    exact ⟨hv, rfl⟩
  | succ k ih =>
    obtain ⟨p, hp, hr⟩ := h
    obtain ⟨hv2, hsz2⟩ := legal_move_valid hv hp
    obtain ⟨hvt, hszt⟩ := ih hv2 hr
    exact ⟨hvt, hszt.trans hsz2⟩

/-- Application of a tile sequence via move_tile, failing on the first error
or rejected move. -/
def apply_moves : SlidePuzzleState → List ℕ → Option SlidePuzzleState
  | s, [] => some s
  | s, mv :: rest =>
    match s.move_tile mv with
    | some (some s2) => apply_moves s2 rest
    | _ => none

lemma apply_moves_append (s : SlidePuzzleState) (l1 l2 : List ℕ) :
    apply_moves s (l1 ++ l2) =
      match apply_moves s l1 with
      | some s2 => apply_moves s2 l2
      | none => none := by
  induction l1 generalizing s with
  | nil => rfl
  | cons mv rest ih =>
    show apply_moves s (mv :: (rest ++ l2)) = _
    rw [show apply_moves s (mv :: (rest ++ l2)) =
      (match s.move_tile mv with
       | some (some s2) => apply_moves s2 (rest ++ l2)
       | _ => none) from rfl,
      show apply_moves s (mv :: rest) =
      (match s.move_tile mv with
       | some (some s2) => apply_moves s2 rest
       | _ => none) from rfl]
    rcases hmv : s.move_tile mv with _ | mo
    · rfl
    · rcases mo with _ | s2
      · rfl
      · exact ih s2

lemma nodup_indexOf_getElem {l : List ℕ} (h : l.Nodup) {i : ℕ}
    (hi : i < l.length) : List.indexOf (l[i]) l = i := by
  have hmem : l[i] ∈ l := List.getElem_mem hi
  have hio := List.indexOf_lt_length.mpr hmem
  exact h.getElem_inj_iff.mp (List.getElem_indexOf hio)

lemma move_tile_eq_of_index {s : SlidePuzzleState} {t ti : ℕ}
    (hio : s.index_of t = some ti) :
    s.move_tile t =
      if Nat.dist (s.blank_index / s.size) (ti / s.size) +
          Nat.dist (s.blank_index % s.size) (ti % s.size) ≠ 1 then some none
      else some (some (s.swap s.blank_index ti)) := by
  rw [move_tile, hio]

lemma move_tile_of_legal {s : SlidePuzzleState} (hv : s.valid = true)
    {p : ℕ × SlidePuzzleState} (hp : p ∈ s.legal_moves) :
    s.move_tile p.1 = some (some p.2) := by
  obtain ⟨ni, hni, hadj, hpe⟩ := mem_legal_moves_shape hv hp
  have hniL : ni < s.tiles.length := by rw [valid_length hv]; exact hni
  have hget : s.tiles.getD ni 0 = s.tiles[ni] := by
    rw [List.getD_eq_getElem?_getD, List.getElem?_eq_getElem hniL]
    rfl
  have hidx : List.indexOf (s.tiles.getD ni 0) s.tiles = ni := by
    rw [hget]
    exact nodup_indexOf_getElem (valid_nodup hv) hniL
  have hio : s.index_of (s.tiles.getD ni 0) =
      some (List.indexOf (s.tiles.getD ni 0) s.tiles) :=
    index_of_mem (by rw [hget]; exact List.getElem_mem hniL)
  rw [hpe]
  show s.move_tile (s.tiles.getD ni 0) = some (some (s.swap s.blank_index ni))
  rw [move_tile_eq_of_index (by rw [hio, hidx]), if_neg (by omega)]

lemma legal_of_move_tile {s : SlidePuzzleState} (hv : s.valid = true)
    {t : ℕ} {s2 : SlidePuzzleState}
    (h : s.move_tile t = some (some s2)) : (t, s2) ∈ s.legal_moves := by
  rcases hio : s.index_of t with _ | ti
  · rw [move_tile, hio] at h
    cases h
  · rw [move_tile_eq_of_index hio] at h
    by_cases hd : Nat.dist (s.blank_index / s.size) (ti / s.size) +
        Nat.dist (s.blank_index % s.size) (ti % s.size) = 1
    · rw [if_neg (by omega)] at h
      have hs2 : s2 = s.swap s.blank_index ti := by
        have := Option.some.inj (Option.some.inj h)
        exact this.symm
      have htiL : ti < s.tiles.length := by
        have hmem : t ∈ s.tiles := by
          by_contra hnm
          rw [index_of_not_mem hnm] at hio
          cases hio
        rw [index_of_mem hmem] at hio
        have := Option.some.inj hio
        rw [← this]
        exact List.indexOf_lt_length.mpr hmem
      have hti : ti < s.size * s.size := by
        rw [← valid_length hv]
        exact htiL
      have hn : 1 ≤ s.size := by
        rcases Nat.eq_zero_or_pos s.size with h0 | h0
        · rw [h0] at hti
          omega
        · exact h0
      have hb : s.blank_index < s.size * s.size := by
        rw [← valid_length hv]
        exact blank_index_lt hv hn
      rw [legal_moves_eq_adj hb, List.mem_map]
      refine ⟨ti, ?_, ?_⟩
      · rw [adj_cells_mem hb]
        exact ⟨hti, hd⟩
      · have hmem : t ∈ s.tiles := by
          by_contra hnm
          rw [index_of_not_mem hnm] at hio
          cases hio
        have hgt : s.tiles.getD ti 0 = t := by
          rw [index_of_mem hmem] at hio
          have := Option.some.inj hio
          rw [← this]
          exact getD_indexOf hmem
        rw [hgt, hs2]
    · rw [if_pos (by omega)] at h
      cases Option.some.inj h

lemma legal_move_ne {s : SlidePuzzleState} (hv : s.valid = true)
    {p : ℕ × SlidePuzzleState} (hp : p ∈ s.legal_moves) : p.2 ≠ s := by
  obtain ⟨ni, hni, hadj, hpe⟩ := mem_legal_moves_shape hv hp
  have hn : 1 ≤ s.size := size_pos_of_legal_move hp
  have hbiL : s.blank_index < s.tiles.length := blank_index_lt hv hn
  have hniL : ni < s.tiles.length := by rw [valid_length hv]; exact hni
  have hne : s.blank_index ≠ ni := by
    intro h
    rw [h, Nat.dist_self, Nat.dist_self] at hadj
    omega
  have hblank : s.tiles.getD s.blank_index 0 = 0 := tiles_blank_index hv hn
  have hv0 : s.tiles.getD ni 0 ≠ 0 := by
    intro h0
    have hg : s.tiles[ni] = 0 := by
      rw [List.getD_eq_getElem?_getD, List.getElem?_eq_getElem hniL] at h0
      simpa using h0
    have hgb : s.tiles[s.blank_index] = 0 := blank_getElem hv hn hbiL
    exact hne ((valid_nodup hv).getElem_inj_iff.mp (hgb.trans hg.symm))
  intro heq
  rw [hpe] at heq
  have htl : (s.swap s.blank_index ni).tiles.getD s.blank_index 0 =
      s.tiles.getD s.blank_index 0 := by
    rw [show (s.swap s.blank_index ni).tiles = s.tiles from congrArg tiles heq]
  rw [swap_getD _ hbiL hniL, if_neg hne, if_pos rfl, hblank] at htl
  exact hv0 htl

lemma reach_of_apply {t : SlidePuzzleState} :
    ∀ (l : List ℕ) (s : SlidePuzzleState), s.valid = true →
      apply_moves s l = some t → ReachIn l.length s t := by
  intro l
  induction l with
  | nil =>
    intro s hv h
    have : t = s := (Option.some.inj h).symm
    exact this
  | cons mv rest ih =>
    intro s hv h
    rw [show apply_moves s (mv :: rest) =
      (match s.move_tile mv with
       | some (some s2) => apply_moves s2 rest
       | _ => none) from rfl] at h
    rcases hmv : s.move_tile mv with _ | mo
    · rw [hmv] at h
      cases h
    · rcases mo with _ | s2
      · rw [hmv] at h
        cases h
      · rw [hmv] at h
        have hmem := legal_of_move_tile hv hmv
        have hv2 := (legal_move_valid hv hmem).1
        exact ⟨(mv, s2), hmem, ih s2 hv2 h⟩

lemma entryLt_false_iff (a b : HeapEntry) :
    entryLt a b = false ↔ b.1 < a.1 ∨ (b.1 = a.1 ∧ b.2.1 ≤ a.2.1) := by
  simp only [entryLt, Bool.or_eq_false_iff, Bool.and_eq_false_iff,
    decide_eq_false_iff_not, beq_iff_eq, beq_eq_false_iff_ne, Ne,
    not_lt]
  omega

lemma entryLt_irrefl (a : HeapEntry) : entryLt a a = false := by
  rw [entryLt_false_iff]
  omega

lemma entryLt_asymm {a b : HeapEntry} (h : entryLt a b = true) :
    entryLt b a = false := by
  simp only [entryLt, Bool.or_eq_true, Bool.and_eq_true, decide_eq_true_eq,
    beq_iff_eq] at h
  rw [entryLt_false_iff]
  omega

lemma entryLt_false_trans {a b c : HeapEntry} (h1 : entryLt a b = false)
    (h2 : entryLt b c = false) : entryLt a c = false := by
  rw [entryLt_false_iff] at h1 h2 ⊢
  omega

lemma heapMin_spec (x : HeapEntry) (l : List HeapEntry) :
    heapMin x l ∈ x :: l ∧ ∀ e ∈ x :: l, entryLt e (heapMin x l) = false := by
  induction l generalizing x with
  | nil =>
    refine ⟨List.mem_singleton.mpr rfl, ?_⟩
    intro e he
    rw [List.mem_singleton.mp he]
    exact entryLt_irrefl _
  | cons y l ih =>
    have hstep : heapMin x (y :: l) =
        heapMin (if entryLt y x then y else x) l := rfl
    obtain ⟨hmem, hle⟩ := ih (if entryLt y x then y else x)
    have hx2 : entryLt x (if entryLt y x then y else x) = false ∧
        entryLt y (if entryLt y x then y else x) = false := by
      by_cases hyx : entryLt y x = true
      · rw [if_pos hyx]
        exact ⟨entryLt_asymm hyx, entryLt_irrefl y⟩
      · rw [if_neg hyx]
        exact ⟨entryLt_irrefl x, Bool.eq_false_iff.mpr hyx⟩
    have hmin2 : entryLt (if entryLt y x then y else x)
        (heapMin (if entryLt y x then y else x) l) = false :=
      hle _ (List.mem_cons_self _ _)
    rw [hstep]
    constructor
    · rcases List.mem_cons.mp hmem with h | h
      · rw [h]
        split_ifs
        · exact List.mem_cons_of_mem _ (List.mem_cons_self _ _)
        · exact List.mem_cons_self _ _
      · exact List.mem_cons_of_mem _ (List.mem_cons_of_mem _ h)
    · intro e he
      rcases List.mem_cons.mp he with h | h
      · rw [h]
        exact entryLt_false_trans hx2.1 hmin2
      · rcases List.mem_cons.mp h with h2 | h2
        · rw [h2]
          exact entryLt_false_trans hx2.2 hmin2
        · exact hle e (List.mem_cons_of_mem _ h2)

lemma heapPop_none {l : List HeapEntry} : heapPop l = none ↔ l = [] := by
  rcases l with _ | ⟨x, xs⟩
  · simp [heapPop]
  · simp [heapPop]

lemma heapPop_some {l : List HeapEntry} {e : HeapEntry}
    {rest : List HeapEntry} (h : heapPop l = some (e, rest)) :
    e ∈ l ∧ rest = l.erase e ∧ ∀ e2 ∈ l, entryLt e2 e = false := by
  rcases l with _ | ⟨x, xs⟩
  · cases h
  · have hh : heapPop (x :: xs) =
        some (heapMin x xs, (x :: xs).erase (heapMin x xs)) := rfl
    rw [hh] at h
    have hpair := Option.some.inj h
    have he : heapMin x xs = e := congrArg Prod.fst hpair
    have hrest : (x :: xs).erase (heapMin x xs) = rest :=
      congrArg Prod.snd hpair
    obtain ⟨hmem, hle⟩ := heapMin_spec x xs
    rw [he] at hmem hle
    rw [he] at hrest
    exact ⟨hmem, hrest.symm, hle⟩

/-- Finite universe of board states of a given size: all permutations of the
expected tile values. Every state the search touches lives here. -/
def stateFinset (n : ℕ) : Finset SlidePuzzleState :=
  ((List.range (n * n)).permutations.map
    (fun l => (⟨n, l⟩ : SlidePuzzleState))).toFinset

lemma mem_stateFinset {n : ℕ} {s : SlidePuzzleState} :
    s ∈ stateFinset n ↔ s.size = n ∧ s.tiles.Perm (List.range (n * n)) := by
  unfold stateFinset
  rw [List.mem_toFinset, List.mem_map]
  constructor
  · rintro ⟨l, hl, rfl⟩
    exact ⟨rfl, List.mem_permutations.mp hl⟩
  · rintro ⟨hsz, hperm⟩
    refine ⟨s.tiles, List.mem_permutations.mpr hperm, ?_⟩
    cases s
    simp_all

lemma valid_mem_stateFinset {n : ℕ} {s : SlidePuzzleState}
    (hv : s.valid = true) (hsz : s.size = n) : s ∈ stateFinset n := by
  rw [mem_stateFinset]
  exact ⟨hsz, hsz ▸ valid_perm hv⟩

/-- Number of states already discovered (g_score defined). -/
def dcard (n : ℕ) (A : AStarState) : ℕ :=
  ((stateFinset n).filter (fun s => (A.g_score s).isSome)).card

/-- Potential of one g_score cell: undiscovered cells carry the largest
weight, discovered cells shrink as their cost improves. -/
def phiCell (N : ℕ) : Option ℕ → ℕ
  | none => N + 1
  | some v => v + 1

/-- Termination potential of the search: relaxation strictly decreases it. -/
def phi (n : ℕ) (A : AStarState) : ℕ :=
  ∑ s ∈ stateFinset n, phiCell (stateFinset n).card (A.g_score s)

/-- Minimal move count from start to s. -/
def IsMinReach (start s : SlidePuzzleState) (v : ℕ) : Prop :=
  ReachIn v start s ∧ ∀ j, ReachIn j start s → v ≤ j

/-- Core loop invariant of the A* search in solve_puzzle: everything except
the witness property, which is temporarily broken while the popped node is
being expanded. -/
structure AInvCore (start goal : SlidePuzzleState) (A : AStarState) :
    Prop where
  g_start : A.g_score start = some 0
  g_reach : ∀ s v, A.g_score s = some v → ReachIn v start s
  g_valid : ∀ s v, A.g_score s = some v → s.valid = true ∧ s.size = start.size
  g_counter : ∀ s v, A.g_score s = some v → v ≤ A.counter
  g_bound : ∀ s v, A.g_score s = some v → v + 1 ≤ dcard start.size A
  frontier_g : ∀ e ∈ A.frontier, ∃ v, A.g_score e.2.2 = some v ∧
      v + e.2.2.manhattan_distance ≤ e.1
  cf_link : ∀ s q, A.came_from s = some q →
      q.1.move_tile q.2 = some (some s) ∧
      ∃ gp gs, A.g_score q.1 = some gp ∧ A.g_score s = some gs ∧ gp < gs
  cf_start_none : A.came_from start = none
  cf_some : ∀ s v, A.g_score s = some v → s ≠ start → A.came_from s ≠ none
  goal_entry : ∀ v, A.g_score goal = some v → ∃ e ∈ A.frontier, e.2.2 = goal

/-- Witness property: every optimally-costed discovered state either still
has its frontier entry, or has been fully expanded with all successors
relaxed to within one step. -/
def NProp (start : SlidePuzzleState) (A : AStarState) : Prop :=
  ∀ s v, A.g_score s = some v → IsMinReach start s v →
    (∃ c, (v + s.manhattan_distance, c, s) ∈ A.frontier) ∨
    (∀ p ∈ s.legal_moves, ∃ w, A.g_score p.2 = some w ∧ w ≤ v + 1)

/-- Full loop invariant, holding at the top of every loop iteration. -/
structure AInv (start goal : SlidePuzzleState) (A : AStarState) extends
    AInvCore start goal A : Prop where
  inv_N : NProp start A

lemma relaxOne_pos {cur : SlidePuzzleState} {ccost : ℕ} {A : AStarState}
    {e : ℕ × SlidePuzzleState}
    (h : improves A.g_score e.2 (ccost + 1) = true) :
    relaxOne cur ccost A e =
      { frontier := A.frontier ++
          [(ccost + 1 + e.2.manhattan_distance, A.counter + 1, e.2)]
        counter := A.counter + 1
        came_from := fun s => if s = e.2 then some (cur, e.1)
          else A.came_from s
        g_score := fun s => if s = e.2 then some (ccost + 1)
          else A.g_score s } := by
  unfold relaxOne
  rw [if_pos h]

lemma relaxOne_neg {cur : SlidePuzzleState} {ccost : ℕ} {A : AStarState}
    {e : ℕ × SlidePuzzleState}
    (h : improves A.g_score e.2 (ccost + 1) = false) :
    relaxOne cur ccost A e = A := by
  unfold relaxOne
  rw [if_neg (by rw [h]; exact Bool.false_ne_true)]

lemma improves_true_iff {g : SlidePuzzleState → Option ℕ}
    {nb : SlidePuzzleState} {tent : ℕ} :
    improves g nb tent = true ↔
      g nb = none ∨ ∃ old, g nb = some old ∧ tent < old := by
  unfold improves
  rcases h : g nb with _ | old <;> simp

lemma improves_false_iff {g : SlidePuzzleState → Option ℕ}
    {nb : SlidePuzzleState} {tent : ℕ} :
    improves g nb tent = false ↔ ∃ old, g nb = some old ∧ old ≤ tent := by
  unfold improves
  rcases h : g nb with _ | old <;> simp

lemma phi_update {n : ℕ} {A A2 : AStarState} {st : SlidePuzzleState}
    (hst : st ∈ stateFinset n)
    (hg : ∀ s, s ≠ st → A2.g_score s = A.g_score s) :
    phi n A2 + phiCell (stateFinset n).card (A.g_score st) =
    phi n A + phiCell (stateFinset n).card (A2.g_score st) := by
  unfold phi
  rw [← Finset.sum_erase_add _ _ hst,
      ← Finset.sum_erase_add _ (fun s =>
        phiCell (stateFinset n).card (A.g_score s)) hst]
  have hcong : ∑ s ∈ (stateFinset n).erase st,
      phiCell (stateFinset n).card (A2.g_score s) =
      ∑ s ∈ (stateFinset n).erase st,
      phiCell (stateFinset n).card (A.g_score s) := by
    apply Finset.sum_congr rfl
    intro x hx
    rw [hg x (Finset.mem_erase.mp hx).1]
  rw [hcong]
  omega

lemma dcard_fresh {n : ℕ} {A A2 : AStarState} {st : SlidePuzzleState}
    (hst : st ∈ stateFinset n) (hnone : A.g_score st = none)
    (hsome : (A2.g_score st).isSome = true)
    (hg : ∀ s, s ≠ st → A2.g_score s = A.g_score s) :
    dcard n A2 = dcard n A + 1 := by
  unfold dcard
  have hset : (stateFinset n).filter (fun s => (A2.g_score s).isSome) =
      insert st ((stateFinset n).filter (fun s => (A.g_score s).isSome)) := by
    ext x
    rw [Finset.mem_insert, Finset.mem_filter, Finset.mem_filter]
    by_cases hx : x = st
    · subst hx
      simp [hst, hsome]
    · rw [hg x hx]
      simp [hx]
  rw [hset, Finset.card_insert_of_not_mem]
  rw [Finset.mem_filter, hnone]
  simp

lemma dcard_congr {n : ℕ} {A A2 : AStarState} {st : SlidePuzzleState}
    (hsame : (A2.g_score st).isSome = (A.g_score st).isSome)
    (hg : ∀ s, s ≠ st → A2.g_score s = A.g_score s) :
    dcard n A2 = dcard n A := by
  unfold dcard
  congr 1
  apply Finset.filter_congr
  intro x hx
  by_cases hxs : x = st
  · subst hxs
    simp [hsame]
  · rw [hg x hxs]

lemma dcard_lt_card {n : ℕ} {A : AStarState} {st : SlidePuzzleState}
    (hst : st ∈ stateFinset n) (hnone : A.g_score st = none) :
    dcard n A < (stateFinset n).card := by
  apply Finset.card_lt_card
  constructor
  · exact Finset.filter_subset _ _
  · intro hsub
    have := hsub hst
    rw [Finset.mem_filter, hnone] at this
    simp at this

/-- Relation between the loop data before and after processing part of one
expansion: the invariant still holds, the cost of the expanded node is
untouched, g_score values only improve, the frontier only grows, and the
termination potential does not increase (strictly decreasing unless nothing
happened). -/
structure RelaxPost (start goal cur : SlidePuzzleState) (ccost : ℕ)
    (A A2 : AStarState) : Prop where
  inv : AInvCore start goal A2
  gcur : A2.g_score cur = some ccost
  gmono : ∀ s v, A.g_score s = some v → ∃ w, A2.g_score s = some w ∧ w ≤ v
  fmono : ∀ e ∈ A.frontier, e ∈ A2.frontier
  gchange : ∀ s, A2.g_score s = A.g_score s ∨
      (A2.g_score s = some (ccost + 1) ∧
       ∃ c, (ccost + 1 + s.manhattan_distance, c, s) ∈ A2.frontier)
  pmono : phi start.size A2 ≤ phi start.size A
  pdec : A2 = A ∨ phi start.size A2 < phi start.size A
  mdec : 2 * phi start.size A2 + A2.frontier.length ≤
      2 * phi start.size A + A.frontier.length

lemma RelaxPost.trans {start goal cur : SlidePuzzleState} {ccost : ℕ}
    {A A2 A3 : AStarState} (h1 : RelaxPost start goal cur ccost A A2)
    (h2 : RelaxPost start goal cur ccost A2 A3) :
    RelaxPost start goal cur ccost A A3 := by
  refine ⟨h2.inv, h2.gcur, ?_, ?_, ?_, le_trans h2.pmono h1.pmono, ?_,
    le_trans h2.mdec h1.mdec⟩
  · intro s v hv
    obtain ⟨w, hw, hwle⟩ := h1.gmono s v hv
    obtain ⟨w2, hw2, hw2le⟩ := h2.gmono s w hw
    exact ⟨w2, hw2, le_trans hw2le hwle⟩
  · intro e he
    exact h2.fmono e (h1.fmono e he)
  · intro s
    rcases h2.gchange s with h2c | ⟨h2c, c2, hc2⟩
    · rcases h1.gchange s with h1c | ⟨h1c, c1, hc1⟩
      · exact Or.inl (h2c.trans h1c)
      · exact Or.inr ⟨h2c.trans h1c, c1, h2.fmono _ hc1⟩
    · exact Or.inr ⟨h2c, c2, hc2⟩
  · rcases h1.pdec with h | h
    · rcases h2.pdec with h2d | h2d
      · exact Or.inl (h2d.trans h)
      · exact Or.inr (by rw [h] at h2d; exact h2d)
    · exact Or.inr (lt_of_le_of_lt h2.pmono h)

lemma RelaxPost.refl (start goal cur : SlidePuzzleState) (ccost : ℕ)
    (A : AStarState) (hInv : AInvCore start goal A)
    (hgcur : A.g_score cur = some ccost) :
    RelaxPost start goal cur ccost A A :=
  ⟨hInv, hgcur, fun s v hv => ⟨v, hv, le_refl v⟩, fun _ he => he,
   fun s => Or.inl rfl, le_refl _, Or.inl rfl, le_refl _⟩

lemma relaxOne_spec {start goal cur : SlidePuzzleState} {ccost : ℕ}
    {A : AStarState} {e : ℕ × SlidePuzzleState}
    (hstv : start.valid = true)
    (hvcur : cur.valid = true) (hszcur : cur.size = start.size)
    (hp : e ∈ cur.legal_moves)
    (hInv : AInvCore start goal A) (hgcur : A.g_score cur = some ccost) :
    RelaxPost start goal cur ccost A (relaxOne cur ccost A e) ∧
    ∃ w, (relaxOne cur ccost A e).g_score e.2 = some w ∧ w ≤ ccost + 1 := by
  rcases himp : improves A.g_score e.2 (ccost + 1) with _ | _
  · rw [relaxOne_neg himp]
    obtain ⟨old, hold, holdle⟩ := improves_false_iff.mp himp
    exact ⟨RelaxPost.refl start goal cur ccost A hInv hgcur,
      old, hold, holdle⟩
  · have hne_cur : e.2 ≠ cur := legal_move_ne hvcur hp
    have hval2 := legal_move_valid hvcur hp
    have hsz2 : e.2.size = start.size := hval2.2.trans hszcur
    have hreach2 : ReachIn (ccost + 1) start e.2 :=
      ReachIn_trans (hInv.g_reach cur ccost hgcur) ⟨e, hp, rfl⟩
    have hne_start : e.2 ≠ start := by
      intro h
      rcases improves_true_iff.mp himp with h0 | ⟨old, hold, hlt⟩
      · rw [h, hInv.g_start] at h0
        cases h0
      · rw [h, hInv.g_start] at hold
        have := Option.some.inj hold
        omega
    have hmemF : e.2 ∈ stateFinset start.size :=
      valid_mem_stateFinset hval2.1 hsz2
    rw [relaxOne_pos himp]
    set A2 : AStarState :=
      { frontier := A.frontier ++
          [(ccost + 1 + e.2.manhattan_distance, A.counter + 1, e.2)]
        counter := A.counter + 1
        came_from := fun s => if s = e.2 then some (cur, e.1)
          else A.came_from s
        g_score := fun s => if s = e.2 then some (ccost + 1)
          else A.g_score s } with hA2
    have hg2 : ∀ s, A2.g_score s =
        if s = e.2 then some (ccost + 1) else A.g_score s := fun s => rfl
    have hcf2 : ∀ s, A2.came_from s =
        if s = e.2 then some (cur, e.1) else A.came_from s := fun s => rfl
    have hgmono : ∀ s v, A.g_score s = some v →
        ∃ w, A2.g_score s = some w ∧ w ≤ v := by
      intro s v hv
      rw [hg2]
      by_cases hs : s = e.2
      · subst hs
        refine ⟨ccost + 1, by rw [if_pos rfl], ?_⟩
        rcases improves_true_iff.mp himp with h0 | ⟨old, hold, hlt⟩
        · rw [hv] at h0
          cases h0
        · rw [hv] at hold
          have := Option.some.inj hold
          omega
      · exact ⟨v, by rw [if_neg hs]; exact hv, le_refl v⟩
    have hgcur2 : A2.g_score cur = some ccost := by
      rw [hg2, if_neg (fun h => hne_cur h.symm)]
      exact hgcur
    have hInv2 : AInvCore start goal A2 := by
      refine ⟨?_, ?_, ?_, ?_, ?_, ?_, ?_, ?_, ?_, ?_⟩
      · rw [hg2, if_neg (fun h => hne_start h.symm)]
        exact hInv.g_start
      · intro s v hv
        rw [hg2] at hv
        by_cases hs : s = e.2
        · rw [if_pos hs] at hv
          have := Option.some.inj hv
          rw [hs, ← this]
          exact hreach2
        · rw [if_neg hs] at hv
          exact hInv.g_reach s v hv
      · intro s v hv
        rw [hg2] at hv
        by_cases hs : s = e.2
        · rw [hs]
          exact ⟨hval2.1, hsz2⟩
        · rw [if_neg hs] at hv
          exact hInv.g_valid s v hv
      · intro s v hv
        rw [hg2] at hv
        show v ≤ A.counter + 1
        by_cases hs : s = e.2
        · rw [if_pos hs] at hv
          have := Option.some.inj hv
          have hcc := hInv.g_counter cur ccost hgcur
          omega
        · rw [if_neg hs] at hv
          have := hInv.g_counter s v hv
          omega
      · intro s v hv
        rw [hg2] at hv
        rcases hfresh : A.g_score e.2 with _ | old
        · have hdc : dcard start.size A2 = dcard start.size A + 1 :=
            dcard_fresh hmemF hfresh (by rw [hg2, if_pos rfl]; rfl)
              (fun s hs => by rw [hg2, if_neg hs])
          rw [hdc]
          by_cases hs : s = e.2
          · rw [if_pos hs] at hv
            have := Option.some.inj hv
            have := hInv.g_bound cur ccost hgcur
            omega
          · rw [if_neg hs] at hv
            have := hInv.g_bound s v hv
            omega
        · have hdc : dcard start.size A2 = dcard start.size A :=
            @dcard_congr start.size A A2 e.2
              (by rw [hg2, if_pos rfl, hfresh]; rfl)
              (fun s hs => by rw [hg2, if_neg hs])
          rw [hdc]
          by_cases hs : s = e.2
          · rw [if_pos hs] at hv
            have := Option.some.inj hv
            have hob := hInv.g_bound e.2 old hfresh
            rcases improves_true_iff.mp himp with h0 | ⟨old2, hold2, hlt⟩
            · rw [hfresh] at h0
              cases h0
            · rw [hfresh] at hold2
              have := Option.some.inj hold2
              omega
          · rw [if_neg hs] at hv
            exact hInv.g_bound s v hv
      · intro e2 he2
        rw [show A2.frontier = A.frontier ++
            [(ccost + 1 + e.2.manhattan_distance, A.counter + 1, e.2)]
          from rfl] at he2
        rcases List.mem_append.mp he2 with h | h
        · obtain ⟨v, hv, hvle⟩ := hInv.frontier_g e2 h
          obtain ⟨w, hw, hwle⟩ := hgmono e2.2.2 v hv
          exact ⟨w, hw, by omega⟩
        · rw [List.mem_singleton.mp h]
          dsimp only
          refine ⟨ccost + 1, by simp, by omega⟩
      · intro s q hq
        rw [hcf2] at hq
        by_cases hs : s = e.2
        · rw [if_pos hs] at hq
          have hqe := Option.some.inj hq
          rw [hs, ← hqe]
          refine ⟨move_tile_of_legal hvcur hp, ccost, ccost + 1, hgcur2, ?_, ?_⟩
          · rw [hg2, if_pos rfl]
          · omega
        · rw [if_neg hs] at hq
          obtain ⟨hmv, gp, gs, hgp, hgs, hlt⟩ := hInv.cf_link s q hq
          refine ⟨hmv, ?_⟩
          obtain ⟨w, hw, hwle⟩ := hgmono q.1 gp hgp
          refine ⟨w, gs, hw, ?_, by omega⟩
          rw [hg2, if_neg hs]
          exact hgs
      · rw [hcf2, if_neg (fun h => hne_start h.symm)]
        exact hInv.cf_start_none
      · intro s v hv hsne
        rw [hg2] at hv
        rw [hcf2]
        by_cases hs : s = e.2
        · rw [if_pos hs]
          exact Option.some_ne_none _
        · rw [if_neg hs] at hv
          rw [if_neg hs]
          exact hInv.cf_some s v hv hsne
      · intro v hv
        rw [hg2] at hv
        by_cases hs : goal = e.2
        · refine ⟨(ccost + 1 + e.2.manhattan_distance, A.counter + 1, e.2),
            ?_, hs.symm⟩
          rw [show A2.frontier = A.frontier ++
              [(ccost + 1 + e.2.manhattan_distance, A.counter + 1, e.2)]
            from rfl]
          exact List.mem_append_right _ (List.mem_singleton.mpr rfl)
        · rw [if_neg hs] at hv
          obtain ⟨e0, he0, he0s⟩ := hInv.goal_entry v hv
          refine ⟨e0, ?_, he0s⟩
          rw [show A2.frontier = A.frontier ++
              [(ccost + 1 + e.2.manhattan_distance, A.counter + 1, e.2)]
            from rfl]
          exact List.mem_append_left _ he0
    have hphi : phi start.size A2 < phi start.size A := by
      have hupd := @phi_update start.size A A2 e.2 hmemF
        (fun s hs => by rw [hg2, if_neg hs])
      have hcell2 : A2.g_score e.2 = some (ccost + 1) := by
        rw [hg2, if_pos rfl]
      rw [hcell2] at hupd
      rcases hfresh : A.g_score e.2 with _ | old
      · rw [hfresh] at hupd
        have hdlt := dcard_lt_card hmemF hfresh
        have hbnd := hInv.g_bound cur ccost hgcur
        simp only [phiCell] at hupd
        omega
      · rw [hfresh] at hupd
        rcases improves_true_iff.mp himp with h0 | ⟨old2, hold2, hlt⟩
        · rw [hfresh] at h0
          cases h0
        · rw [hfresh] at hold2
          have := Option.some.inj hold2
          simp only [phiCell] at hupd
          omega
    refine ⟨⟨hInv2, hgcur2, hgmono, ?_, ?_, le_of_lt hphi, Or.inr hphi, ?_⟩,
      ccost + 1, by rw [hg2, if_pos rfl], le_refl _⟩
    · intro e2 he2
      rw [show A2.frontier = A.frontier ++
          [(ccost + 1 + e.2.manhattan_distance, A.counter + 1, e.2)]
        from rfl]
      exact List.mem_append_left _ he2
    · intro s
      by_cases hs : s = e.2
      · refine Or.inr ⟨by rw [hg2, if_pos hs], A.counter + 1, ?_⟩
        rw [show A2.frontier = A.frontier ++
            [(ccost + 1 + e.2.manhattan_distance, A.counter + 1, e.2)]
          from rfl, hs]
        exact List.mem_append_right _ (List.mem_singleton.mpr rfl)
      · exact Or.inl (by rw [hg2, if_neg hs])
    · rw [show A2.frontier = A.frontier ++
          [(ccost + 1 + e.2.manhattan_distance, A.counter + 1, e.2)]
        from rfl, List.length_append]
      simp only [List.length_cons, List.length_nil]
      omega

lemma expand_spec {start goal cur : SlidePuzzleState} {ccost : ℕ}
    (hstv : start.valid = true) (hvcur : cur.valid = true)
    (hszcur : cur.size = start.size) :
    ∀ (L : List (ℕ × SlidePuzzleState)) (A : AStarState),
      (∀ p ∈ L, p ∈ cur.legal_moves) →
      AInvCore start goal A → A.g_score cur = some ccost →
      RelaxPost start goal cur ccost A (L.foldl (relaxOne cur ccost) A) ∧
      ∀ p ∈ L, ∃ w,
        (L.foldl (relaxOne cur ccost) A).g_score p.2 = some w ∧
        w ≤ ccost + 1 := by
  intro L
  induction L with
  | nil =>
    intro A hL hInv hgcur
    exact ⟨RelaxPost.refl start goal cur ccost A hInv hgcur,
      fun p hp => absurd hp (List.not_mem_nil p)⟩
  | cons e L ih =>
    intro A hL hInv hgcur
    have he : e ∈ cur.legal_moves := hL e (List.mem_cons_self _ _)
    obtain ⟨hpost1, w1, hw1, hw1le⟩ :=
      relaxOne_spec hstv hvcur hszcur he hInv hgcur
    have hL2 : ∀ p ∈ L, p ∈ cur.legal_moves :=
      fun p hp => hL p (List.mem_cons_of_mem _ hp)
    obtain ⟨hpost2, hrest⟩ :=
      ih (relaxOne cur ccost A e) hL2 hpost1.inv hpost1.gcur
    have hfold : (e :: L).foldl (relaxOne cur ccost) A =
        L.foldl (relaxOne cur ccost) (relaxOne cur ccost A e) := rfl
    rw [hfold]
    refine ⟨hpost1.trans hpost2, ?_⟩
    intro p hp
    rcases List.mem_cons.mp hp with h | h
    · subst h
      obtain ⟨w2, hw2, hw2le⟩ := hpost2.gmono p.2 w1 hw1
      exact ⟨w2, hw2, by omega⟩
    · exact hrest p h

lemma solveStep_eq_none {goal : SlidePuzzleState} {A : AStarState}
    (hpop : heapPop A.frontier = none) :
    solveStep goal A = .ret .unsolvable := by
  unfold solveStep
  rw [hpop]

lemma solveStep_eq_some {goal : SlidePuzzleState} {A : AStarState}
    {e : HeapEntry} {rest : List HeapEntry}
    (hpop : heapPop A.frontier = some (e, rest)) :
    solveStep goal A =
      if e.2.2 = goal then
        (match reconstruct_path (A.counter + 1) A.came_from e.2.2 with
         | some moves => .ret (.ok moves)
         | none => .ret .internalError)
      else
        (match A.g_score e.2.2 with
         | none => .ret .internalError
         | some ccost =>
           .next (expandAll e.2.2 ccost { A with frontier := rest })) := by
  unfold solveStep
  rw [hpop]

lemma mid_core {start goal : SlidePuzzleState} {A : AStarState}
    {e : HeapEntry} {rest : List HeapEntry}
    (hInv : AInv start goal A)
    (hpop : heapPop A.frontier = some (e, rest))
    (hne_goal : e.2.2 ≠ goal) :
    AInvCore start goal { A with frontier := rest } := by
  obtain ⟨hemem, hrest, hmin⟩ := heapPop_some hpop
  refine ⟨hInv.g_start, hInv.g_reach, hInv.g_valid, hInv.g_counter,
    hInv.g_bound, ?_, hInv.cf_link, hInv.cf_start_none, hInv.cf_some, ?_⟩
  · intro e2 he2
    apply hInv.frontier_g
    show e2 ∈ A.frontier
    rw [hrest] at he2
    exact List.erase_subset _ _ he2
  · intro v hv
    obtain ⟨e0, he0, he0g⟩ := hInv.goal_entry v hv
    refine ⟨e0, ?_, he0g⟩
    show e0 ∈ rest
    rw [hrest]
    refine (List.mem_erase_of_ne ?_).mpr he0
    intro hcontra
    rw [hcontra] at he0g
    exact hne_goal he0g

lemma solveStep_next_spec {start goal : SlidePuzzleState} {A A2 : AStarState}
    (hstv : start.valid = true)
    (hInv : AInv start goal A) (hstep : solveStep goal A = .next A2) :
    AInv start goal A2 ∧
    2 * phi start.size A2 + A2.frontier.length <
      2 * phi start.size A + A.frontier.length := by
  rcases hpop : heapPop A.frontier with _ | ⟨e, rest⟩
  · rw [solveStep_eq_none hpop] at hstep
    cases hstep
  · rw [solveStep_eq_some hpop] at hstep
    by_cases hcg : e.2.2 = goal
    · rw [if_pos hcg] at hstep
      rcases hrec : reconstruct_path (A.counter + 1) A.came_from e.2.2 with _ | mv
      · rw [hrec] at hstep
        cases hstep
      · rw [hrec] at hstep
        cases hstep
    · rw [if_neg hcg] at hstep
      rcases hg : A.g_score e.2.2 with _ | ccost
      · rw [hg] at hstep
        cases hstep
      · rw [hg] at hstep
        have hA2 : A2 = expandAll e.2.2 ccost { A with frontier := rest } := by
          cases hstep
          rfl
      -- facts about the popped state
        obtain ⟨hemem, hrest, hmin⟩ := heapPop_some hpop
        obtain ⟨hvcur, hszcur⟩ := hInv.g_valid e.2.2 ccost hg
        have hmid := mid_core hInv hpop hcg
        have hgm : AStarState.g_score { A with frontier := rest } = A.g_score :=
          rfl
        obtain ⟨hpost, hQ2⟩ := @expand_spec start goal e.2.2 ccost hstv hvcur hszcur
          e.2.2.legal_moves { A with frontier := rest }
          (fun p hp => hp) hmid (by rw [hgm]; exact hg)
        rw [show expandAll e.2.2 ccost { A with frontier := rest } =
          e.2.2.legal_moves.foldl (relaxOne e.2.2 ccost)
            { A with frontier := rest } from rfl] at hA2
        rw [hA2]
        set Afin := e.2.2.legal_moves.foldl (relaxOne e.2.2 ccost)
          { A with frontier := rest } with hAfin
        constructor
        · refine ⟨hpost.inv, ?_⟩
          intro s v hv hminr
          rcases hpost.gchange s with hunch | ⟨hch, c, hc⟩
          · have hvA : A.g_score s = some v := by
              rw [← hgm, ← hunch]
              exact hv
            rcases hInv.inv_N s v hvA hminr with ⟨c, hcm⟩ | hsucc
            · by_cases hce : ((v + s.manhattan_distance, c, s) : HeapEntry) = e
              · have hs_cur : s = e.2.2 := congrArg (fun x => x.2.2) hce
                have hv_cc : v = ccost := by
                  rw [hs_cur] at hvA
                  rw [hvA] at hg
                  exact Option.some.inj hg.symm |>.symm
                right
                intro p hp
                obtain ⟨w, hw, hwle⟩ := hQ2 p (by rw [← hs_cur]; exact hp)
                exact ⟨w, hw, by omega⟩
              · left
                refine ⟨c, hpost.fmono _ ?_⟩
                show (v + s.manhattan_distance, c, s) ∈ rest
                rw [hrest]
                exact (List.mem_erase_of_ne hce).mpr hcm
            · right
              intro p hp
              obtain ⟨w, hw, hwle⟩ := hsucc p hp
              obtain ⟨w2, hw2, hw2le⟩ := hpost.gmono p.2 w (by rw [hgm]; exact hw)
              exact ⟨w2, hw2, by omega⟩
          · have hveq : v = ccost + 1 := by
              rw [hv] at hch
              exact Option.some.inj hch
            left
            rw [hveq]
            exact ⟨c, hc⟩
        · have hphimid : phi start.size { A with frontier := rest } =
              phi start.size A := rfl
          have hmd := hpost.mdec
          rw [hphimid] at hmd
          have hlen := List.length_pos_of_mem hemem
          have hrl : rest.length + 1 = A.frontier.length := by
            rw [hrest, List.length_erase_of_mem hemem]
            omega
          have hfr : (AStarState.frontier { A with frontier := rest }) =
              rest := rfl
          rw [hfr] at hmd
          omega

lemma chain_aux {start goal : SlidePuzzleState} {A : AStarState}
    (hInv : AInv start goal A) :
    ∀ (m : ℕ) (s : SlidePuzzleState) (j : ℕ),
      A.g_score s = some j → IsMinReach start s j → ReachIn m s goal →
      (∀ k, ReachIn k start goal → j + m ≤ k) →
      (∃ D, A.g_score goal = some D ∧ IsMinReach start goal D) ∨
      (∃ (s2 : SlidePuzzleState) (j2 m2 c : ℕ),
        (j2 + s2.manhattan_distance, c, s2) ∈ A.frontier ∧
        A.g_score s2 = some j2 ∧ ReachIn m2 s2 goal ∧ j2 + m2 = j + m) := by
  intro m
  induction m with
  | zero =>
    intro s j hg hmin hreach hopt
    have hsg : goal = s := hreach
    left
    rw [hsg]
    exact ⟨j, hg, hmin⟩
  | succ m ih =>
    intro s j hg hmin hreach hopt
    rcases hInv.inv_N s j hg hmin with ⟨c, hc⟩ | hsucc
    · right
      exact ⟨s, j, m + 1, c, hc, hg, hreach, rfl⟩
    · obtain ⟨p, hp, hpr⟩ := hreach
      obtain ⟨w, hw, hwle⟩ := hsucc p hp
      have hr1 : ReachIn (j + 1) start p.2 :=
        ReachIn_trans hmin.1 ⟨p, hp, rfl⟩
      have hmin2 : ∀ j2, ReachIn j2 start p.2 → j + 1 ≤ j2 := by
        intro j2 hj2
        have hgo := ReachIn_trans hj2 hpr
        have := hopt (j2 + m) hgo
        omega
      have hweq : w = j + 1 := by
        have hge := hmin2 w (hInv.g_reach p.2 w hw)
        omega
      rw [hweq] at hw
      have hres := ih p.2 (j + 1) hw ⟨hr1, hmin2⟩ hpr
        (fun k hk => by have := hopt k hk; omega)
      rcases hres with h | ⟨s2, j2, m2, c, hcm, hg2, hr2, hsum⟩
      · exact Or.inl h
      · exact Or.inr ⟨s2, j2, m2, c, hcm, hg2, hr2, by omega⟩

lemma reconstruct_spec {start goal : SlidePuzzleState} {A : AStarState}
    (hInv : AInvCore start goal A) :
    ∀ (v : ℕ) (s : SlidePuzzleState), A.g_score s = some v →
      ∀ fuel, v < fuel →
      ∃ moves, reconstruct_path fuel A.came_from s = some moves ∧
        apply_moves start moves = some s ∧ moves.length ≤ v := by
  intro v
  induction v using Nat.strong_induction_on with
  | _ v ih =>
    intro s hg fuel hfuel
    rcases fuel with _ | fuel
    · omega
    rcases hcf : A.came_from s with _ | ⟨prev, tile⟩
    · have hs : s = start := by
        by_contra hne
        exact hInv.cf_some s v hg hne hcf
      refine ⟨[], ?_, ?_, Nat.zero_le v⟩
      · show reconstruct_path (fuel + 1) A.came_from s = some []
        unfold reconstruct_path
        rw [hcf]
      · rw [hs]
        rfl
    · obtain ⟨hmv, gp, gs, hgp, hgs, hlt⟩ := hInv.cf_link s (prev, tile) hcf
      have hmv2 : prev.move_tile tile = some (some s) := hmv
      have hgp2 : A.g_score prev = some gp := hgp
      have hgsv : v = gs := by
        rw [hg] at hgs
        exact Option.some.inj hgs
      have hgpv : gp < v := by omega
      obtain ⟨mp, hmp, happ, hlen⟩ := ih gp hgpv prev hgp2 fuel (by omega)
      refine ⟨mp ++ [tile], ?_, ?_, ?_⟩
      · show reconstruct_path (fuel + 1) A.came_from s = some (mp ++ [tile])
        unfold reconstruct_path
        rw [hcf]
        show (reconstruct_path fuel A.came_from prev).map
            (fun ms => ms ++ [tile]) = some (mp ++ [tile])
        rw [hmp]
        rfl
      · rw [apply_moves_append, happ]
        show (match prev.move_tile tile with
              | some (some s2) => apply_moves s2 []
              | _ => none) = some s
        rw [hmv2]
        rfl
      · rw [List.length_append]
        simp only [List.length_cons, List.length_nil]
        omega

lemma solveLoop_mono {goal : SlidePuzzleState} :
    ∀ (fuel : ℕ) (A : AStarState) (r : SolveResult),
      solveLoop goal fuel A = r → r ≠ .outOfFuel →
      ∀ fuel2, fuel ≤ fuel2 → solveLoop goal fuel2 A = r := by
  intro fuel
  induction fuel with
  | zero =>
    intro A r h hne fuel2 _
    exact absurd h.symm hne
  | succ fuel ih =>
    intro A r h hne fuel2 hle
    rcases fuel2 with _ | fuel2
    · omega
    rw [show solveLoop goal (fuel2 + 1) A =
      (match solveStep goal A with
       | .ret r => r
       | .next A2 => solveLoop goal fuel2 A2) from rfl]
    rw [show solveLoop goal (fuel + 1) A =
      (match solveStep goal A with
       | .ret r => r
       | .next A2 => solveLoop goal fuel A2) from rfl] at h
    rcases hstep : solveStep goal A with r2 | A2
    · rw [hstep] at h
      exact h
    · rw [hstep] at h
      exact ih A2 r h hne fuel2 (by omega)

lemma initAStar_inv {start : SlidePuzzleState} (hv : start.valid = true)
    (goal : SlidePuzzleState) : AInv start goal (initAStar start) := by
  have hg : ∀ s, (initAStar start).g_score s =
      if s = start then some 0 else none := fun s => rfl
  have hgsome : ∀ s v, (initAStar start).g_score s = some v →
      s = start ∧ v = 0 := by
    intro s v hv2
    rw [hg] at hv2
    by_cases hs : s = start
    · rw [if_pos hs] at hv2
      exact ⟨hs, (Option.some.inj hv2).symm⟩
    · rw [if_neg hs] at hv2
      cases hv2
  refine ⟨⟨?_, ?_, ?_, ?_, ?_, ?_, ?_, ?_, ?_, ?_⟩, ?_⟩
  · rw [hg, if_pos rfl]
  · intro s v hv2
    obtain ⟨hs, hv0⟩ := hgsome s v hv2
    rw [hs, hv0]
    rfl
  · intro s v hv2
    obtain ⟨hs, _⟩ := hgsome s v hv2
    rw [hs]
    exact ⟨hv, rfl⟩
  · intro s v hv2
    obtain ⟨_, hv0⟩ := hgsome s v hv2
    rw [hv0]
    exact Nat.zero_le _
  · intro s v hv2
    obtain ⟨_, hv0⟩ := hgsome s v hv2
    rw [hv0]
    have hmem : start ∈ (stateFinset start.size).filter
        (fun s => ((initAStar start).g_score s).isSome) := by
      rw [Finset.mem_filter]
      refine ⟨valid_mem_stateFinset hv rfl, ?_⟩
      rw [hg, if_pos rfl]
      rfl
    have := Finset.card_pos.mpr ⟨start, hmem⟩
    unfold dcard
    omega
  · intro e he
    have he2 : e = (start.manhattan_distance, 0, start) :=
      List.mem_singleton.mp he
    rw [he2]
    refine ⟨0, ?_, ?_⟩
    · rw [hg, if_pos rfl]
    · show 0 + start.manhattan_distance ≤ start.manhattan_distance
      omega
  · intro s q hq
    cases hq
  · rfl
  · intro s v hv2 hne
    obtain ⟨hs, _⟩ := hgsome s v hv2
    exact absurd hs hne
  · intro v hv2
    obtain ⟨hs, _⟩ := hgsome goal v hv2
    exact ⟨(start.manhattan_distance, 0, start),
      List.mem_singleton.mpr rfl, hs.symm⟩
  · intro s v hv2 hmin
    obtain ⟨hs, hv0⟩ := hgsome s v hv2
    left
    refine ⟨0, ?_⟩
    rw [hs, hv0, Nat.zero_add]
    exact List.mem_singleton.mpr rfl

lemma exists_isMinReach {start t : SlidePuzzleState}
    (h : ∃ k, ReachIn k start t) : ∃ D, IsMinReach start t D := by
  obtain ⟨k, hk⟩ := h
  induction k using Nat.strong_induction_on with
  | _ k ih =>
    by_cases hmin : ∀ j, ReachIn j start t → k ≤ j
    · exact ⟨k, hk, hmin⟩
    · push_neg at hmin
      obtain ⟨j, hj, hjk⟩ := hmin
      exact ih j hjk hj

lemma is_solved_eq {s : SlidePuzzleState} (h : s.is_solved = true) :
    s = solved s.size := by
  obtain ⟨sz, t⟩ := s
  have ht : t = solved_tiles sz := eq_of_beq h
  show SlidePuzzleState.mk sz t = SlidePuzzleState.mk sz (solved_tiles sz)
  rw [ht]

lemma solveLoop_spec {start : SlidePuzzleState} (hv : start.valid = true) :
    ∀ (fuel : ℕ) (A : AStarState),
      AInv start (solved start.size) A →
      2 * phi start.size A + A.frontier.length < fuel →
      ((∀ k, ¬ ReachIn k start (solved start.size)) →
        solveLoop (solved start.size) fuel A = .unsolvable) ∧
      (∀ D, IsMinReach start (solved start.size) D →
        ∃ moves, solveLoop (solved start.size) fuel A = .ok moves ∧
          apply_moves start moves = some (solved start.size) ∧
          moves.length = D) := by
  intro fuel
  induction fuel with
  | zero =>
    intro A hInv hfl
    omega
  | succ fuel ih =>
    intro A hInv hfl
    have hmin0 : IsMinReach start start 0 :=
      ⟨rfl, fun j _ => Nat.zero_le j⟩
    rcases hstep : solveStep (solved start.size) A with r | A2
    · rw [show solveLoop (solved start.size) (fuel + 1) A =
        (match solveStep (solved start.size) A with
         | .ret r => r
         | .next A2 => solveLoop (solved start.size) fuel A2) from rfl,
        hstep]
      rcases hpop : heapPop A.frontier with _ | ⟨e, rest⟩
      · rw [solveStep_eq_none hpop] at hstep
        have hr : r = .unsolvable := (StepResult.ret.inj hstep).symm
        rw [hr]
        have hfe : A.frontier = [] := heapPop_none.mp hpop
        constructor
        · intro _
          rfl
        · intro D hD
          exfalso
          have hchain := chain_aux hInv D start 0 hInv.g_start hmin0 hD.1
            (fun k hk => by have := hD.2 k hk; omega)
          rcases hchain with ⟨D2, hgD2, _⟩ | ⟨s2, j2, m2, c, hcm, _⟩
          · obtain ⟨e0, he0, _⟩ := hInv.goal_entry D2 hgD2
            rw [hfe] at he0
            exact absurd he0 (List.not_mem_nil e0)
          · rw [hfe] at hcm
            exact absurd hcm (List.not_mem_nil _)
      · rw [solveStep_eq_some hpop] at hstep
        obtain ⟨hemem, hrest, hminE⟩ := heapPop_some hpop
        by_cases hcg : e.2.2 = solved start.size
        · rw [if_pos hcg] at hstep
          obtain ⟨v, hgv, hvle⟩ := hInv.frontier_g e hemem
          have hvc := hInv.g_counter _ v hgv
          obtain ⟨moves, hmvr, happ, hlen⟩ :=
            reconstruct_spec hInv.toAInvCore v e.2.2 hgv (A.counter + 1)
              (by omega)
          rw [hmvr] at hstep
          have hr : r = .ok moves := (StepResult.ret.inj hstep).symm
          rw [hr]
          have hreachv : ReachIn v start (solved start.size) := by
            rw [← hcg]
            exact hInv.g_reach _ v hgv
          constructor
          · intro hunreach
            exact absurd hreachv (hunreach v)
          · intro D hD
            have hDv : D ≤ v := hD.2 v hreachv
            have hvD : v ≤ D := by
              have hchain := chain_aux hInv D start 0 hInv.g_start hmin0 hD.1
                (fun k hk => by have := hD.2 k hk; omega)
              rcases hchain with ⟨D2, hgD2, hminD2⟩ |
                ⟨s2, j2, m2, c, hcm, hg2, hr2, hsum⟩
              · have hD2D : D2 = D :=
                  le_antisymm (hminD2.2 D hD.1) (hD.2 D2 hminD2.1)
                have hgv2 : A.g_score (solved start.size) = some v := by
                  rw [← hcg]
                  exact hgv
                rw [hgD2] at hgv2
                have := Option.some.inj hgv2
                omega
              · obtain ⟨hval2, hsz2⟩ := hInv.g_valid s2 j2 hg2
                have hadm : s2.manhattan_distance ≤ m2 := by
                  apply manhattan_admissible hval2
                  rw [hsz2]
                  exact hr2
                have hemin := hminE _ hcm
                rcases (entryLt_false_iff _ _).mp hemin with hlt | ⟨heq, _⟩
                · have hgoal0 : e.2.2.manhattan_distance = 0 := by
                    rw [hcg]
                    exact manhattan_solved start.size
                  omega
                · have hgoal0 : e.2.2.manhattan_distance = 0 := by
                    rw [hcg]
                    exact manhattan_solved start.size
                  omega
            have hveq : v = D := by omega
            refine ⟨moves, rfl, ?_, ?_⟩
            · rw [← hcg]
              exact happ
            · have hrm : ReachIn moves.length start (solved start.size) := by
                rw [← hcg]
                exact reach_of_apply moves start hv happ
              have := hD.2 moves.length hrm
              omega
        · rw [if_neg hcg] at hstep
          rcases hg : A.g_score e.2.2 with _ | ccost
          · obtain ⟨v, hgv, _⟩ := hInv.frontier_g e hemem
            rw [hg] at hgv
            cases hgv
          · rw [hg] at hstep
            cases hstep
    · obtain ⟨hInv2, hmeas⟩ := solveStep_next_spec hv hInv hstep
      rw [show solveLoop (solved start.size) (fuel + 1) A =
        (match solveStep (solved start.size) A with
         | .ret r => r
         | .next A2 => solveLoop (solved start.size) fuel A2) from rfl,
        hstep]
      exact ih A2 hInv2 (by omega)

/-- C1: on a solvable valid start, solve_puzzle terminates (every
sufficiently large fuel yields the same returned moves), the returned tile
sequence drives the start to a solved state via move_tile, its length is
minimal among all such solving sequences, and an already-solved start gets
the empty sequence. -/
theorem claim_C1 (start : SlidePuzzleState) (hv : start.valid = true)
    (hreach : ∃ k, ReachIn k start (solved start.size)) :
    ∃ fuel moves,
      (∀ fuel2, fuel ≤ fuel2 → solve_puzzle start fuel2 = .ok moves) ∧
      (∃ final, apply_moves start moves = some final ∧
        final.is_solved = true) ∧
      (∀ seq final, apply_moves start seq = some final →
        final.is_solved = true → moves.length ≤ seq.length) ∧
      (start.is_solved = true → moves = []) := by
  rcases hsol : start.is_solved with _ | _
  · obtain ⟨D, hD⟩ := exists_isMinReach hreach
    refine ⟨2 * phi start.size (initAStar start) +
      (initAStar start).frontier.length + 1, ?_⟩
    obtain ⟨moves, hloop, happ, hlen⟩ :=
      (solveLoop_spec hv (2 * phi start.size (initAStar start) +
          (initAStar start).frontier.length + 1) (initAStar start)
        (initAStar_inv hv _) (by omega)).2 D hD
    refine ⟨moves, ?_, ?_, ?_, ?_⟩
    · intro fuel2 hle
      unfold solve_puzzle
      rw [hsol]
      show solveLoop (solved start.size) fuel2 (initAStar start) = .ok moves
      exact solveLoop_mono _ _ _ hloop (by intro h; cases h) fuel2 hle
    · exact ⟨solved start.size, happ, is_solved_solved start.size⟩
    · intro seq final happ2 hfin
      have hr := reach_of_apply seq start hv happ2
      have hfs : final = solved start.size := by
        obtain ⟨_, hsz⟩ := ReachIn_size hv hr
        rw [is_solved_eq hfin, hsz]
      rw [hfs] at hr
      have := hD.2 seq.length hr
      omega
    · intro h
      cases h
  · refine ⟨0, [], ?_, ?_, ?_, fun _ => rfl⟩
    · intro fuel2 _
      unfold solve_puzzle
      rw [hsol]
      rfl
    · refine ⟨start, rfl, hsol⟩
    · intro seq final _ _
      exact Nat.zero_le _

/-- Closed witness for claim_C1, at the already-solved 2x2 start. -/
theorem claim_C1_witness :
    (solved 2).valid = true ∧
    (∃ fuel moves,
      (∀ fuel2, fuel ≤ fuel2 → solve_puzzle (solved 2) fuel2 = .ok moves) ∧
      (∃ final, apply_moves (solved 2) moves = some final ∧
        final.is_solved = true) ∧
      (∀ seq final, apply_moves (solved 2) seq = some final →
        final.is_solved = true → moves.length ≤ seq.length) ∧
      ((solved 2).is_solved = true → moves = [])) :=
  ⟨by decide, claim_C1 (solved 2) (by decide) ⟨0, rfl⟩⟩

/-- C2: on a valid start from which the canonical solved state is not
reachable, solve_puzzle terminates with the unsolvable outcome (the
ValueError of the Python code) for every sufficiently large fuel. -/
theorem claim_C2 (start : SlidePuzzleState) (hv : start.valid = true)
    (hunreach : ∀ k, ¬ ReachIn k start (solved start.size)) :
    ∃ fuel, ∀ fuel2, fuel ≤ fuel2 →
      solve_puzzle start fuel2 = .unsolvable := by
  rcases hsol : start.is_solved with _ | _
  · refine ⟨2 * phi start.size (initAStar start) +
      (initAStar start).frontier.length + 1, ?_⟩
    have hloop :=
      (solveLoop_spec hv (2 * phi start.size (initAStar start) +
          (initAStar start).frontier.length + 1) (initAStar start)
        (initAStar_inv hv _) (by omega)).1 hunreach
    intro fuel2 hle
    unfold solve_puzzle
    rw [hsol]
    show solveLoop (solved start.size) fuel2 (initAStar start) = .unsolvable
    exact solveLoop_mono _ _ _ hloop (by intro h; cases h) fuel2 hle
  · exfalso
    exact hunreach 0 (is_solved_eq hsol).symm

lemma closed_unreach {R : List SlidePuzzleState} {t : SlidePuzzleState}
    (hcl : ∀ s ∈ R, ∀ p ∈ SlidePuzzleState.legal_moves s, p.2 ∈ R)
    (ht : t ∉ R) :
    ∀ (k : ℕ) (s : SlidePuzzleState), s ∈ R → ¬ ReachIn k s t := by
  intro k
  induction k with
  | zero =>
    intro s hs h
    have hts : t = s := h
    rw [hts] at ht
    exact ht hs
  | succ k ih =>
    intro s hs h
    obtain ⟨p, hp, hr⟩ := h
    exact ih p.2 (hcl s hs p hp) hr

/-- The 12-state orbit of the unsolvable 2x2 configuration [2,1,3,0] under
legal moves: closed under legal_moves and avoiding the solved state. -/
def oddOrbit2 : List SlidePuzzleState :=
  [⟨2, [0, 1, 2, 3]⟩, ⟨2, [0, 2, 3, 1]⟩, ⟨2, [0, 3, 1, 2]⟩,
   ⟨2, [1, 0, 2, 3]⟩, ⟨2, [1, 3, 0, 2]⟩, ⟨2, [1, 3, 2, 0]⟩,
   ⟨2, [2, 0, 3, 1]⟩, ⟨2, [2, 1, 0, 3]⟩, ⟨2, [2, 1, 3, 0]⟩,
   ⟨2, [3, 0, 1, 2]⟩, ⟨2, [3, 2, 0, 1]⟩, ⟨2, [3, 2, 1, 0]⟩]

/-- Closed witness for claim_C2, at the unsolvable 2x2 start [2,1,3,0]; its
unreachability hypothesis is discharged by the concrete closed orbit. -/
theorem claim_C2_witness :
    (SlidePuzzleState.mk 2 [2, 1, 3, 0]).valid = true ∧
    ∃ fuel, ∀ fuel2, fuel ≤ fuel2 →
      solve_puzzle ⟨2, [2, 1, 3, 0]⟩ fuel2 = .unsolvable :=
  ⟨by decide, claim_C2 ⟨2, [2, 1, 3, 0]⟩ (by decide)
    (fun k => @closed_unreach oddOrbit2 (solved 2) (by decide) (by decide)
      k ⟨2, [2, 1, 3, 0]⟩ (by decide))⟩

/-- k-fold iteration of the solve_puzzle loop body from the initial search
data; none once the loop has returned (or would error). -/
def iterateSolve (start : SlidePuzzleState) : ℕ → Option AStarState
  | 0 => some (initAStar start)
  | k + 1 =>
    match iterateSolve start k with
    | none => none
    | some A =>
      match solveStep (solved start.size) A with
      | .ret _ => none
      | .next A2 => some A2

lemma iterateSolve_inv {start : SlidePuzzleState} (hv : start.valid = true) :
    ∀ (k : ℕ) (A : AStarState), iterateSolve start k = some A →
      AInv start (solved start.size) A := by
  intro k
  induction k with
  | zero =>
    intro A h
    have hA : A = initAStar start := (Option.some.inj h).symm
    rw [hA]
    exact initAStar_inv hv _
  | succ k ih =>
    intro A h
    rw [show iterateSolve start (k + 1) =
      (match iterateSolve start k with
       | none => none
       | some A =>
         match solveStep (solved start.size) A with
         | .ret _ => none
         | .next A2 => some A2) from rfl] at h
    rcases hit : iterateSolve start k with _ | A0
    · rw [hit] at h
      cases h
    · rw [hit] at h
      have h2 : (match solveStep (solved start.size) A0 with
          | .ret _ => none
          | .next A2 => some A2) = some A := h
      rcases hstep : solveStep (solved start.size) A0 with r | A2
      · rw [hstep] at h2
        cases h2
      · rw [hstep] at h2
        have hA : A = A2 := (Option.some.inj h2).symm
        rw [hA]
        exact (solveStep_next_spec hv (ih A0 hit) hstep).1

/-- C9: every state produced by swap (at in-range indices), move_tile,
legal_moves or shuffle from a valid state, and every state recorded in the
solver's g_score, frontier or came_from data at any loop iteration, is valid
and of the same size. -/
theorem claim_C9 (s : SlidePuzzleState) (hv : s.valid = true) :
    (∀ a b, a < s.tiles.length → b < s.tiles.length →
      (s.swap a b).valid = true ∧ (s.swap a b).size = s.size) ∧
    (∀ t s2, s.move_tile t = some (some s2) →
      s2.valid = true ∧ s2.size = s.size) ∧
    (∀ p ∈ s.legal_moves, p.2.valid = true ∧ p.2.size = s.size) ∧
    (2 ≤ s.size → ∀ k rng res, s.shuffle k rng = some res →
      res.valid = true ∧ res.size = s.size) ∧
    (∀ k A, iterateSolve s k = some A →
      (∀ st v, A.g_score st = some v → st.valid = true ∧ st.size = s.size) ∧
      (∀ e ∈ A.frontier, e.2.2.valid = true ∧ e.2.2.size = s.size) ∧
      (∀ st q, A.came_from st = some q →
        q.1.valid = true ∧ q.1.size = s.size)) := by
  refine ⟨?_, ?_, ?_, ?_, ?_⟩
  · intro a b ha hb
    rw [valid_length hv] at ha hb
    exact ⟨swap_valid hv ha hb, swap_size s a b⟩
  · intro t s2 h
    exact legal_move_valid hv (legal_of_move_tile hv h)
  · intro p hp
    exact legal_move_valid hv hp
  · intro hsz k rng res hres
    obtain ⟨res2, hgo, hwalk⟩ := shuffle_go_spec rng k s none 0 hv hsz
    have hre : res = res2 := by
      rw [show s.shuffle k rng = shuffle_go rng s none k 0 from rfl,
        hgo] at hres
      exact (Option.some.inj hres).symm
    rw [hre]
    exact ReachIn_size hv (policy_walk_reach hwalk)
  · intro k A hA
    have hInv := iterateSolve_inv hv k A hA
    refine ⟨?_, ?_, ?_⟩
    · intro st v hg
      exact hInv.g_valid st v hg
    · intro e he
      obtain ⟨v, hg, _⟩ := hInv.frontier_g e he
      exact hInv.g_valid _ v hg
    · intro st q hq
      obtain ⟨_, gp, gs, hgp, _, _⟩ := hInv.cf_link st q hq
      exact hInv.g_valid q.1 gp hgp

/-- Closed witness for claim_C9, at the solved 2x2 state. -/
theorem claim_C9_witness :
    (solved 2).valid = true ∧
    ((∀ a b, a < (solved 2).tiles.length → b < (solved 2).tiles.length →
      ((solved 2).swap a b).valid = true ∧
      ((solved 2).swap a b).size = (solved 2).size) ∧
    (∀ t s2, (solved 2).move_tile t = some (some s2) →
      s2.valid = true ∧ s2.size = (solved 2).size) ∧
    (∀ p ∈ (solved 2).legal_moves,
      p.2.valid = true ∧ p.2.size = (solved 2).size) ∧
    (2 ≤ (solved 2).size → ∀ k rng res, (solved 2).shuffle k rng = some res →
      res.valid = true ∧ res.size = (solved 2).size) ∧
    (∀ k A, iterateSolve (solved 2) k = some A →
      (∀ st v, A.g_score st = some v →
        st.valid = true ∧ st.size = (solved 2).size) ∧
      (∀ e ∈ A.frontier,
        e.2.2.valid = true ∧ e.2.2.size = (solved 2).size) ∧
      (∀ st q, A.came_from st = some q →
        q.1.valid = true ∧ q.1.size = (solved 2).size))) :=
  ⟨by decide, claim_C9 (solved 2) (by decide)⟩
